import Mathlib

/-!
Shallow embedding of the `ao3` package of the AIDlike-PyScripts repository
(`src/ao3/__url.py`, `src/ao3/tags.py`) together with the parts of Python's
`urllib.parse` machinery those modules build upon, and proofs about the
embedded definitions.

Python strings are modelled as `List Char`, Python `int` as `Int`,
Python `bytes` as `List Nat` (each element < 256), failure (assertion errors,
decode errors from `errors='strict'`) as `Option`/`none`.
-/

set_option maxRecDepth 8000
set_option maxHeartbeats 1600000

/-! ### Generic string helpers (Python `str.split`, `str.strip`, hex digits) -/

/-- Split a char list at the first occurrence of `sep`:
`some (before, after)` when present, `none` when absent.
This models Python's `s.split(sep, 1)` two-element outcome. -/
def splitFirst? (sep : Char) : List Char → Option (List Char × List Char)
  | [] => none
  | c :: rest =>
    if c = sep then some ([], rest)
    else (splitFirst? sep rest).map (fun p => (c :: p.1, p.2))

/-- Python `s.split(sep)` for a one-character separator. -/
def splitOnChar (sep : Char) : List Char → List (List Char)
  | [] => [[]]
  | c :: rest =>
    match splitOnChar sep rest with
    | [] => [[]]
    | h :: t => if c = sep then [] :: h :: t else (c :: h) :: t

/-- Python `s.strip(c)` for a one-character strip set. -/
def stripChar (c : Char) (l : List Char) : List Char :=
  ((l.dropWhile (fun x => x = c)).reverse.dropWhile (fun x => x = c)).reverse

/-- Value of a single hexadecimal digit (both cases), as Python's
`_hextobyte` table in `urllib.parse` accepts. -/
def hexVal (c : Char) : Option Nat :=
  if '0' ≤ c ∧ c ≤ '9' then some (c.toNat - '0'.toNat)
  else if 'a' ≤ c ∧ c ≤ 'f' then some (c.toNat - 'a'.toNat + 10)
  else if 'A' ≤ c ∧ c ≤ 'F' then some (c.toNat - 'A'.toNat + 10)
  else none

/-- Upper-case hexadecimal digit for a value < 16 (as `urllib.parse.quote`
emits). -/
def hexDigitChar (n : Nat) : Char :=
  if n < 10 then Char.ofNat ('0'.toNat + n) else Char.ofNat ('A'.toNat + n - 10)

/-! ### UTF-8 (Python `str.encode('utf-8')` / `bytes.decode('utf-8', 'strict')`) -/

/-- UTF-8 encoding of a single scalar value, as a byte list. -/
def utf8Bytes1 (c : Char) : List Nat :=
  let n := c.toNat
  if n < 0x80 then [n]
  else if n < 0x800 then [0xC0 + n / 0x40, 0x80 + n % 0x40]
  else if n < 0x10000 then
    [0xE0 + n / 0x1000, 0x80 + (n / 0x40) % 0x40, 0x80 + n % 0x40]
  else
    [0xF0 + n / 0x40000, 0x80 + (n / 0x1000) % 0x40, 0x80 + (n / 0x40) % 0x40,
      0x80 + n % 0x40]

/-- UTF-8 encoding of a string. -/
def utf8Bytes (s : List Char) : List Nat := s.flatMap utf8Bytes1

/-- Is `b` a UTF-8 continuation byte? -/
def contByte (b : Nat) : Bool := decide (0x80 ≤ b) && decide (b < 0xC0)

/-- One in-flight multi-byte sequence of the UTF-8 decoder:
`(remaining continuation bytes, accumulated value, minimal legal result)`
(the minimum catches overlong encodings). -/
abbrev Utf8Pending := Option (Nat × Nat × Nat)

/-- Strict UTF-8 decoding, one byte at a time (rejects overlong forms,
surrogates, out-of-range values and truncated sequences), as Python's
`bytes.decode('utf-8', errors='strict')`. -/
def utf8DecodeAux : Utf8Pending → List Nat → Option (List Char)
  | none, [] => some []
  | some _, [] => none
  | none, b :: rest =>
    if b < 0x80 then (utf8DecodeAux none rest).map (fun l => Char.ofNat b :: l)
    else if b < 0xC2 then none
    else if b < 0xE0 then utf8DecodeAux (some (1, b - 0xC0, 0x80)) rest
    else if b < 0xF0 then utf8DecodeAux (some (2, b - 0xE0, 0x800)) rest
    else if b < 0xF5 then utf8DecodeAux (some (3, b - 0xF0, 0x10000)) rest
    else none
  | some (k, acc, mn), b :: rest =>
    if contByte b then
      let acc2 := acc * 0x40 + (b - 0x80)
      if k = 1 then
        if mn ≤ acc2 ∧ (acc2 < 0xD800 ∨ 0xE000 ≤ acc2) ∧ acc2 < 0x110000 then
          (utf8DecodeAux none rest).map (fun l => Char.ofNat acc2 :: l)
        else none
      else utf8DecodeAux (some (k - 1, acc2, mn)) rest
    else none

/-- Strict UTF-8 decoding of a whole byte string. -/
def utf8Decode (l : List Nat) : Option (List Char) := utf8DecodeAux none l

/-! ### Percent-coding (`urllib.parse.quote/quote_plus/unquote/unquote_plus`) -/

/-- One piece produced by splitting on `%`: if it starts with two hex digits
the escape decodes to one byte followed by the rest of the piece, otherwise
the `%` is kept literally, mirroring the loop body of
`urllib.parse.unquote_to_bytes`. -/
def pctItem (item : List Char) : List Nat :=
  match item with
  | h1 :: h2 :: rest =>
    match hexVal h1, hexVal h2 with
    | some a, some b => (0x10 * a + b) :: utf8Bytes rest
    | _, _ => 0x25 :: utf8Bytes item
  | _ => 0x25 :: utf8Bytes item

/-- Percent-decode a string to raw bytes, mirroring
`urllib.parse.unquote_to_bytes`: the string is split on `%` and every piece
after the first is decoded by `pctItem`. -/
def pctDecodeBytes (s : List Char) : List Nat :=
  match splitOnChar '%' s with
  | [] => []
  | b0 :: items => utf8Bytes b0 ++ items.flatMap pctItem

/-- Model of `urllib.parse.unquote(s, errors='strict')`: percent-decode to
bytes and strictly UTF-8-decode the result (`none` models the
`UnicodeDecodeError` raised under `errors='strict'`). -/
def URLs.unquote (s : List Char) : Option (List Char) :=
  utf8Decode (pctDecodeBytes s)

/-- Model of `urllib.parse.unquote_plus(s, errors='strict')`: turn `+` into
spaces, then unquote. -/
def URLs.unquote_plus (s : List Char) : Option (List Char) :=
  URLs.unquote (s.map (fun c => if c = '+' then ' ' else c))

/-- The bytes `urllib.parse.quote` never escapes
(ASCII letters, digits, and `_.-~`). -/
def alwaysSafeByte (b : Nat) : Bool :=
  (decide (0x41 ≤ b) && decide (b ≤ 0x5A)) ||
  (decide (0x61 ≤ b) && decide (b ≤ 0x7A)) ||
  (decide (0x30 ≤ b) && decide (b ≤ 0x39)) ||
  decide (b = 0x5F) || decide (b = 0x2E) || decide (b = 0x2D) || decide (b = 0x7E)

/-- Percent-escape for one byte: `%XX` with upper-case hex. -/
def pctTriple (b : Nat) : List Char := ['%', hexDigitChar (b / 0x10), hexDigitChar (b % 0x10)]

/-- Quote each non-safe byte of the UTF-8 encoding. -/
def quoteBytes (safe : Nat → Bool) (s : List Char) : List Char :=
  (utf8Bytes s).flatMap (fun b => if safe b then [Char.ofNat b] else pctTriple b)

/-- Model of `urllib.parse.quote(s, safe=...)` (the always-safe set plus the
characters in `safeExtra`). -/
def URLs.quote (safeExtra : List Char) (s : List Char) : List Char :=
  quoteBytes (fun b => alwaysSafeByte b || safeExtra.any (fun c => c.toNat = b)) s

/-- Model of `urllib.parse.quote_plus(s, safe='')`: quote with space kept
literal, then replace spaces by `+`. -/
def URLs.quote_plus (s : List Char) : List Char :=
  (URLs.quote [' '] s).map (fun c => if c = ' ' then '+' else c)

/-! ### `urllib.parse.urlsplit` / `urlunsplit` -/

/-- The five components returned by `urllib.parse.urlsplit`
(`SplitResult(scheme, netloc, path, query, fragment)`). -/
structure SplitRes where
  scheme : List Char
  netloc : List Char
  path : List Char
  query : List Char
  fragment : List Char
deriving DecidableEq, Repr

/-- Characters allowed in a URL scheme (`urllib.parse.scheme_chars`). -/
def URLs.schemeChar (c : Char) : Bool := c.isAlpha || c.isDigit || c = '+' || c = '-' || c = '.'

/-- Scheme extraction step of `urlsplit`: if the text before the first `:`
is a non-empty run of scheme characters starting with an ASCII letter, it is
the (lower-cased) scheme. -/
def URLs.schemeSplit (url : List Char) : List Char × List Char :=
  match splitFirst? ':' url with
  | some p =>
    if ¬p.1.isEmpty ∧ p.1.all URLs.schemeChar ∧ (p.1.headD '0').isAlpha then
      (p.1.map Char.toLower, p.2)
    else ([], url)
  | none => ([], url)

/-- Characters that terminate the netloc (`urllib.parse._splitnetloc`). -/
def URLs.stopChar (c : Char) : Bool := c = '/' || c = '?' || c = '#'

/-- Fragment/query extraction of `urlsplit` (fragment at the first `#`, then
query at the first `?`). -/
def URLs.splitTail (scheme netloc r2 : List Char) : SplitRes :=
  let fr := match splitFirst? '#' r2 with
    | some p => p
    | none => (r2, [])
  let pq := match splitFirst? '?' fr.1 with
    | some p => p
    | none => (fr.1, [])
  ⟨scheme, netloc, pq.1, pq.2, fr.2⟩

/-- Model of `urllib.parse.urlsplit` (with `allow_fragments=True`); `none`
models the `ValueError` raised on unbalanced `[`/`]` in the netloc. -/
def URLs.urlsplitO (url : List Char) : Option SplitRes :=
  let s := URLs.schemeSplit url
  if (s.2.take 2) = ['/', '/'] then
    let netloc := (s.2.drop 2).takeWhile (fun c => !URLs.stopChar c)
    let r2 := (s.2.drop 2).dropWhile (fun c => !URLs.stopChar c)
    if (netloc.contains '[' ∧ ¬netloc.contains ']') ∨
        (netloc.contains ']' ∧ ¬netloc.contains '[') then none
    else some (URLs.splitTail s.1 netloc r2)
  else some (URLs.splitTail s.1 [] s.2)

/-- Model of `SplitResult.geturl()`, i.e. `urllib.parse.urlunsplit`. -/
def SplitRes.geturl (r : SplitRes) : List Char :=
  let u1 := if r.netloc ≠ [] ∨ r.path.take 2 = ['/', '/'] then
      ('/' :: '/' :: r.netloc) ++
        (if r.path ≠ [] ∧ r.path.take 1 ≠ ['/'] then '/' :: r.path else r.path)
    else r.path
  let u2 := if r.scheme ≠ [] then r.scheme ++ ':' :: u1 else u1
  let u3 := if r.query ≠ [] then u2 ++ '?' :: r.query else u2
  if r.fragment ≠ [] then u3 ++ '#' :: r.fragment else u3

/-! ### `URLs.split` (src/ao3/__url.py) -/

/-- `URLs.domain`. -/
def URLs.domainChars : List Char := "archiveofourown.org".data

/-- `URLs.domain_www`. -/
def URLs.domainWwwChars : List Char := "www.archiveofourown.org".data

/-- `URLs.protocol`. -/
def URLs.protocolChars : List Char := "https".data

/-- `URLs.protocol_prefix`. -/
def URLs.protocolPfxChars : List Char := "https://".data

/-- `URLs.tag_root`. -/
def URLs.tagRootChars : List Char := "/tags/".data

/-- Dispatch on the `unquote` argument of `URLs.split` /
the `unquote_mode` argument of `URLs.override_query`:
`0` is falsy (no unquoting), `2` selects `unquote_plus`, any other truthy
value selects plain `unquote`. -/
def URLs.applyUnquote (mode : Nat) (s : List Char) : Option (List Char) :=
  match mode with
  | 0 => some s
  | 2 => URLs.unquote_plus s
  | _ => URLs.unquote s

/-- The `www.`-strip / domain-default / domain-assert step of `URLs.split`
(src/ao3/__url.py lines 103-109). -/
def URLs.domainFix (check_domain : Bool) (netloc : List Char) : Option (List Char) :=
  let d1 := if "www.".data.isPrefixOf (netloc.map Char.toLower) then netloc.drop 4 else netloc
  if d1 = [] then some URLs.domainChars
  else if check_domain then (if d1 = URLs.domainChars then some d1 else none)
  else some d1

/-- Model of `URLs.split(url, check_domain, unquote, to_abs)` from
`src/ao3/__url.py`. `none` models a failed `assert` or a strict decode
error. -/
def URLs.split (url : List Char) (check_domain : Bool) (unquoteMode : Nat)
    (to_abs : Bool) : Option SplitRes :=
  match URLs.applyUnquote unquoteMode url with
  | none => none
  | some u1 =>
    let u2 := u1.dropWhile (fun c => c = '/')
    let u3 := if URLs.domainChars.isPrefixOf u2 ∨ URLs.domainWwwChars.isPrefixOf u2 then
        URLs.protocolPfxChars ++ u2
      else u2
    match URLs.urlsplitO u3 with
    | none => none
    | some r =>
      match URLs.domainFix check_domain r.netloc with
      | none => none
      | some d2 =>
        some ⟨if to_abs then URLs.protocolChars else [],
          if to_abs then d2 else [],
          '/' :: r.path.dropWhile (fun c => c = '/'),
          r.query, r.fragment⟩

/-! ### Query parsing/encoding (`urllib.parse.parse_qsl` / `urlencode`) -/

/-- A decoded query pair (key, value). -/
abbrev QPair := List Char × List Char

/-- Python `s.replace('&amp;', '&')` as performed at the start of
`URLs.override_query`. -/
def replaceAmp : List Char → List Char
  | '&' :: 'a' :: 'm' :: 'p' :: ';' :: rest => '&' :: replaceAmp rest
  | c :: rest => c :: replaceAmp rest
  | [] => []

/-- One field of `urllib.parse.parse_qsl` (`strict_parsing` raising is
`none`; a skipped field is `some []`; an accepted field is a singleton). -/
def parseQsField (keepBlank strict : Bool) (f : List Char) : Option (List QPair) :=
  if f = [] then
    if strict then none else some []
  else
    match splitFirst? '=' f with
    | some p =>
      if p.2 ≠ [] ∨ keepBlank then do
        let n ← URLs.unquote_plus p.1
        let v ← URLs.unquote_plus p.2
        some [(n, v)]
      else some []
    | none =>
      if strict then none
      else if keepBlank then do
        let n ← URLs.unquote_plus f
        some [(n, [])]
      else some []

/-- Model of `urllib.parse.parse_qsl(qs, keep_blank_values, strict_parsing,
errors='strict')` with the default `&` separator. -/
def parse_qsl (keepBlank strict : Bool) (qs : List Char) : Option (List QPair) :=
  if qs = [] then some []
  else ((splitOnChar '&' qs).mapM (parseQsField keepBlank strict)).map List.flatten

/-- Dispatch on the `quote_mode` argument of `URLs.override_query`: `1` is
`quote`, `2` is `quote_plus`, anything else is the identity `dummy_quote`. -/
def URLs.applyQuote (mode : Nat) (s : List Char) : List Char :=
  match mode with
  | 1 => URLs.quote [] s
  | 2 => URLs.quote_plus s
  | _ => s

/-- Python `'&'.join(...)`. -/
def joinAmp : List (List Char) → List Char
  | [] => []
  | [f] => f
  | f :: g :: rest => f ++ '&' :: joinAmp (g :: rest)

/-- Model of `urllib.parse.urlencode(query_list, doseq=False,
quote_via=...)`: each key/value is quoted and the `k=v` fields are joined
with `&`. -/
def urlencode (quoteMode : Nat) (ql : List QPair) : List Char :=
  joinAmp (ql.map (fun p => URLs.applyQuote quoteMode p.1 ++ '=' :: URLs.applyQuote quoteMode p.2))

/-! ### `URLs.override_query` (src/ao3/__url.py) -/

/-- Lookup in the `kwargs` dict of `URLs.override_query`, modelled as an
ordered association list with distinct keys; a value of `none` is the
Python `None` "remove this key" sentinel. -/
def lookupKw (k : List Char) : List (List Char × Option (List Char)) → Option (Option (List Char))
  | [] => none
  | kv :: rest => if kv.1 = k then some kv.2 else lookupKw k rest

/-- The replace/remove/append core of `URLs.override_query`
(src/ao3/__url.py lines 192-204), acting on the decoded pair list:
every pair whose key is overridden with a value is rewritten to that value
in place, every pair whose key is overridden with `none` is dropped, and
overrides for absent keys are appended in `kwargs` order. -/
def overrideQueryList (ql : List QPair) (kwargs : List (List Char × Option (List Char))) : List QPair :=
  let replaced := ql.filterMap (fun p =>
    match lookupKw p.1 kwargs with
    | none => some p
    | some none => none
    | some (some v) => some (p.1, v))
  replaced ++ kwargs.filterMap (fun kv =>
    match kv.2 with
    | none => none
    | some v => if kv.1 ∈ replaced.map Prod.fst then none else some (kv.1, v))

/-- Insert one `((weight, original index), pair)` entry into a list sorted
by the strict lexicographic order on `(weight, original index)`. -/
def sortInsert (x : (Int × Int) × QPair) : List ((Int × Int) × QPair) → List ((Int × Int) × QPair)
  | [] => [x]
  | y :: rest =>
    if x.1.1 < y.1.1 ∨ (x.1.1 = y.1.1 ∧ x.1.2 < y.1.2) then x :: y :: rest
    else y :: sortInsert x rest

/-- Insertion sort on `((weight, original index), pair)` entries. -/
def sortPairs : List ((Int × Int) × QPair) → List ((Int × Int) × QPair)
  | [] => []
  | x :: rest => sortInsert x (sortPairs rest)

/-- The `query_sort_key_f` sorting step of `URLs.override_query`: sort the
pairs by `(weight key, original index)` — the sort key produced by
`TagSearch.__query_sort_key`. All keys are distinct (the index is), so this
is exactly Python's stable `sorted`. -/
def sortQuery (w : List Char → Int) (ql : List QPair) : List QPair :=
  (sortPairs (ql.enum.map (fun ip => ((w ip.2.1, (ip.1 : Int)), ip.2)))).map (fun e => e.2)

/-- The query decoding pipeline of `URLs.override_query`: un-escape
`&amp;`, apply the selected unquote function, then `parse_qsl`. -/
def URLs.queryPipeline (keepBlank strict : Bool) (unquoteMode : Nat) (q : List Char) : Option (List QPair) :=
  (URLs.applyUnquote unquoteMode (replaceAmp q)).bind (parse_qsl keepBlank strict)

/-- Model of `URLs.override_query(url_split, keep_blank_values,
strict_parsing, errors='strict', unquote_mode, quote_mode,
query_sort_key_f, **kwargs)` from `src/ao3/__url.py`. -/
def URLs.overrideQuery (keepBlank strict : Bool) (unquoteMode quoteMode : Nat)
    (kwargs : List (List Char × Option (List Char))) (sortW : Option (List Char → Int))
    (s : SplitRes) : Option SplitRes :=
  (URLs.queryPipeline keepBlank strict unquoteMode s.query).map (fun ql =>
    let ql := overrideQueryList ql kwargs
    let ql := match sortW with
      | some w => sortQuery w ql
      | none => ql
    ⟨s.scheme, s.netloc, s.path, urlencode quoteMode ql, s.fragment⟩)

/-! ### Tag model (src/ao3/tags.py) -/

/-- The `TagType` enum. -/
inductive TagType
  | Fandom
  | Character
  | Relationship
  | Freeform
  | Unsorted
deriving DecidableEq, Repr

/-- Numeric value of each `TagType` member. -/
def TagType.value : TagType → Nat
  | .Fandom => 0
  | .Character => 1
  | .Relationship => 2
  | .Freeform => 3
  | .Unsorted => 7

/-- Python name of each `TagType` member (used by `sorting_key`). -/
def TagType.pyName : TagType → List Char
  | .Fandom => "Fandom".data
  | .Character => "Character".data
  | .Relationship => "Relationship".data
  | .Freeform => "Freeform".data
  | .Unsorted => "Unsorted".data

/-- The `type` field of a `Tag`: a `TagType` member, a raw label string, or
`None`. -/
inductive TagTypeU
  | known : TagType → TagTypeU
  | raw : List Char → TagTypeU
  | unset
deriving DecidableEq, Repr

/-- The `Tag` NamedTuple. Dates are modelled as integer timestamps; the
reference sets are modelled as duplicate-free lists of tag-name strings. -/
structure Tag where
  type : TagTypeU
  name : List Char
  url_token : List Char
  canonical : Option Bool
  usages : Int
  date : Option Int
  synonyms : List (List Char)
  parents : List (List Char)
  children : List (List Char)
  subtags : List (List Char)
  metatags : List (List Char)
deriving DecidableEq, Repr

/-- `Tag.hash_id` (src/ao3/tags.py lines 158-160). -/
def Tag.hash_id (t : Tag) : List Char × List Char := (t.name, t.url_token)

/-- Modelled from the spec: `Tag` inherits its `__eq__`/`__hash__` from the
`_CustomHash` base class of the repository's `common` module, which is not
under `src/`; per the spec and the `Tag` docstring ("For equality check and
hashing, only **name** and **url_token** are used"), equality compares
`hash_id` tuples. -/
def Tag.beq (a b : Tag) : Bool := decide (a.hash_id = b.hash_id)

/-- Modelled from the spec: `URLs.tag_url_re_match` is called by
`Tag._clean_args` (src/ao3/tags.py line 214) but is missing from `src/`;
per the spec ("if it looks like a URL or rooted path (matches the tag-root
pattern)") and the examples in the surrounding comments, it recognizes a
string whose path starts at the tag root `/tags/`, optionally preceded by
an `http(s)://`, `www.`-prefixed site domain. -/
def URLs.tag_url_re_match (t : List Char) : Bool :=
  let dropPre := fun (p l : List Char) => if p.isPrefixOf l then l.drop p.length else l
  let t1 := dropPre "www.".data (dropPre "https://".data (dropPre "http://".data t))
  "archiveofourown.org/tags/".data.isPrefixOf t1 ∨ URLs.tagRootChars.isPrefixOf t1

/-- The `_clean_url_token` step of `Tag._clean_args`
(src/ao3/tags.py lines 204-234). -/
def Tag.cleanUrlToken (url_token name : List Char) : Option (List Char) :=
  let t0 := if url_token = ['/'] then name else url_token
  (if URLs.tag_url_re_match t0 then (URLs.split t0 true 1 false).map SplitRes.path
   else some t0).map (fun t1 =>
    if URLs.tagRootChars.isPrefixOf t1 then
      (stripChar '/' (t1.drop 6)).takeWhile (fun c => c ≠ '/')
    else stripChar '/' t1)

/-- The `_clean_ref` step of `Tag._clean_args`: empty input gives a fresh
empty set, any empty-string item fails the assert, otherwise the items form
a set (modelled as a deduplicated list). -/
def Tag.cleanRef (val : List (List Char)) : Option (List (List Char)) :=
  if val = [] then some []
  else if val.any (fun x => x.isEmpty) then none
  else some val.dedup

/-- Model of `Tag.new_instance` / `Tag._clean_args`
(src/ao3/tags.py lines 176-372). `now` models `datetime.now()`. A `none`
`url_token` fails: the Python default `None` reaches the missing
`URLs.tag_url_re_match` helper / `None.startswith`, which raises. -/
def Tag.new_instance (now : Int) (ty : TagTypeU) (name : List Char)
    (url_token : Option (List Char)) (canonical : Option Bool)
    (usages : Option Int) (date : Option Int)
    (synonyms parents children subtags metatags : List (List Char)) : Option Tag :=
  if name = [] then none
  else
    match url_token with
    | none => none
    | some tok =>
      match Tag.cleanUrlToken tok name with
      | none => none
      | some ct =>
        if ('/') ∈ ct then none
        else
          let usagesV := usages.getD (-1)
          let dateV := if date = none ∧ usagesV > -1 then some now else date
          match Tag.cleanRef synonyms, Tag.cleanRef parents, Tag.cleanRef children,
            Tag.cleanRef subtags, Tag.cleanRef metatags with
          | some sy2, some pa2, some ch2, some su2, some me2 =>
            some ⟨ty, name, ct, canonical, usagesV, dateV, sy2, pa2, ch2, su2, me2⟩
          | _, _, _, _, _ => none

/-- The `type_string` helper of `Tag.sorting_key`. -/
def Tag.typeString : TagTypeU → List Char
  | .unset => []
  | .raw s => s
  | .known t => (Nat.repr t.value).data ++ '_' :: t.pyName

/-- `_TagDumpConfig.zero_day` (`datetime(2020, 1, 1)`) as a timestamp. -/
def zero_day : Int := 1577836800

/-- The `date_key` helper of `Tag.sorting_key`: `zero_day - date`, with a
missing date counting as `zero_day`. -/
def Tag.dateKey (d : Option Int) : Int := zero_day - d.getD zero_day

/-- Python `not self.canonical`: true unless `canonical` is `True`. -/
def Tag.notCanonical (t : Tag) : Bool := decide (¬t.canonical = some true)

/-- The codomain of `Tag.sorting_key`: Python's lexicographic tuple
comparison on `(bool, int, str, str, str, timedelta)`. -/
abbrev TagSortKey :=
  Lex (Bool × Lex (Int × Lex (List Char × Lex (List Char × Lex (List Char × Int)))))

/-- Model of `Tag.sorting_key` (src/ao3/tags.py lines 498-518):
`(not canonical, -usages, type_string(type), name, url_token,
zero_day - date)`. -/
def Tag.sorting_key (t : Tag) : TagSortKey :=
  toLex (t.notCanonical, toLex (-t.usages, toLex (Tag.typeString t.type,
    toLex (t.name, toLex (t.url_token, Tag.dateKey t.date)))))

/-! ### TagSet and TagSearch (src/ao3/tags.py) -/

/-- The `TagSet` class: a Python `set` of tags (modelled as an
insertion-ordered list that never holds two identity-equal tags) carrying a
`name`. -/
structure TagSetM where
  name : List Char
  tags : List Tag
deriving DecidableEq, Repr

/-- Adding one tag to a Python set of tags: a no-op when an equal (by
`Tag.beq` identity) element is already present — the existing element is
kept — and an append otherwise. -/
def TagSetM.insertTag (s : TagSetM) (t : Tag) : TagSetM :=
  if s.tags.any (fun u => Tag.beq u t) then s else ⟨s.name, s.tags ++ [t]⟩

/-- `TagSet.update(iterable)` (Python `set.update`): insert each tag in
order. -/
def TagSetM.update (s : TagSetM) (ts : List Tag) : TagSetM :=
  ts.foldl TagSetM.insertTag s

/-- `TagSearch.__query_sort_override_weights` together with the `.get(key, 0)`
default, as used by `TagSearch.__query_sort_key`. -/
def TagSearch.queryWeight (k : List Char) : Int :=
  if k = "utf8".data then -11
  else if k = "query[name]".data then -2
  else if k = "query[type]".data then -1
  else if k = "view_adult".data then 10
  else if k = "page".data then 11
  else 0

/-- The kwargs `page=x if x > 1 else None, utf8='✓'` that
`TagSearch.page_urls` passes to `URLs.override_query` for page `x`. -/
def TagSearch.pageKwargs (x : Int) : List (List Char × Option (List Char)) :=
  [("page".data, if x > 1 then some (Int.repr x).data else none),
   ("utf8".data, some "✓".data)]

/-- The Python `range(2 if skip_first else 1, max(1, n) + 1)` of
`TagSearch.page_urls`. -/
def pageRange (n : Int) (skipFirst : Bool) : List Int :=
  match skipFirst with
  | true => (List.range (max 1 n + 1 - 2).toNat).map (fun i => 2 + Int.ofNat i)
  | false => (List.range (max 1 n + 1 - 1).toNat).map (fun i => 1 + Int.ofNat i)

/-- Model of `TagSearch.page_urls(n, skip_first)`
(src/ao3/tags.py lines 654-664): one `override_query(...).geturl()` per page
number, with default parse/quote modes and the `__query_sort_key` sorting.
`stored` is the canonicalized `self.url`. -/
def TagSearch.page_urls (stored : SplitRes) (n : Int) (skipFirst : Bool) : Option (List (List Char)) :=
  ((pageRange n skipFirst).mapM (fun x =>
    URLs.overrideQuery true true 2 2 (TagSearch.pageKwargs x) (some TagSearch.queryWeight) stored)).map
    (fun l => l.map SplitRes.geturl)

/-- One fetched result page as seen by `load_tags`: the HTTP status code
reported by the fetch collaborator and the tags parsed from the page. -/
structure FetchedPage where
  code : Int
  tags : List Tag
deriving DecidableEq, Repr

/-- Model of `TagSearch.load_tags(cache)` (src/ao3/tags.py lines 681-754)
with the fetch/parse collaborators abstracted as inputs: `firstPage` is the
parse of page 1, `pager` the page count detected from its pager (or `none`
when no pagination control exists), `otherPages` the fetched pages `2..n`.
The returned flag records whether the cache file was written
(`cache_and_return` vs `dummy`); `none` models a failed assert, i.e. an
aborted crawl with no cache write. -/
def TagSearch.load_tags (collName : List Char) (firstPage : List Tag)
    (pager : Option Int) (otherPages : List FetchedPage) (cache : Bool) :
    Option (TagSetM × Bool) :=
  let res : TagSetM := ⟨collName, []⟩
  match pager with
  | none => some (res.update firstPage, cache)
  | some n =>
    if n ≤ 1 then none
    else if otherPages.any (fun p => p.code != 200) then none
    else some (res.update (firstPage ++ (otherPages.map FetchedPage.tags).flatten), cache)

/-! ### Lemmas: characters and UTF-8 -/

theorem toNat_ofNat_valid (n : Nat) (h : n.isValidChar) : (Char.ofNat n).toNat = n := by
  simp [Char.ofNat, h, Char.ofNatAux, Char.toNat, UInt32.toNat, BitVec.toNat_ofNatLt]

theorem char_valid_ranges (c : Char) : c.toNat < 0xD800 ∨ (0xE000 ≤ c.toNat ∧ c.toNat < 0x110000) :=
  c.valid

theorem utf8Decode_utf8Bytes1 (c : Char) (bs : List Nat) :
    utf8Decode (utf8Bytes1 c ++ bs) = (utf8Decode bs).map (fun l => c :: l) := by
  have hv := char_valid_ranges c
  show utf8DecodeAux none (utf8Bytes1 c ++ bs) = (utf8DecodeAux none bs).map (fun l => c :: l)
  by_cases h1 : c.toNat < 0x80
  · have hb : utf8Bytes1 c = [c.toNat] := by
      simp only [utf8Bytes1]
      rw [if_pos h1]
    rw [hb]
    show utf8DecodeAux none (c.toNat :: bs) = _
    rw [utf8DecodeAux]
    rw [if_pos h1, Char.ofNat_toNat]
  · by_cases h2 : c.toNat < 0x800
    · have hb : utf8Bytes1 c = [0xC0 + c.toNat / 0x40, 0x80 + c.toNat % 0x40] := by
        simp only [utf8Bytes1]
        rw [if_neg h1, if_pos h2]
      rw [hb]
      show utf8DecodeAux none ((0xC0 + c.toNat / 0x40) :: (0x80 + c.toNat % 0x40) :: bs) = _
      rw [utf8DecodeAux]
      rw [if_neg (by omega), if_neg (by omega), if_pos (by omega)]
      rw [utf8DecodeAux]
      rw [if_pos (by simp [contByte]; omega)]
      simp only []
      rw [if_pos trivial]
      have harith : (0xC0 + c.toNat / 0x40 - 0xC0) * 0x40 + (0x80 + c.toNat % 0x40 - 0x80)
          = c.toNat := by omega
      rw [harith]
      rw [if_pos (by omega), Char.ofNat_toNat]
    · by_cases h3 : c.toNat < 0x10000
      · have hb : utf8Bytes1 c = [0xE0 + c.toNat / 0x1000, 0x80 + (c.toNat / 0x40) % 0x40,
            0x80 + c.toNat % 0x40] := by
          simp only [utf8Bytes1]
          rw [if_neg h1, if_neg h2, if_pos h3]
        rw [hb]
        show utf8DecodeAux none ((0xE0 + c.toNat / 0x1000) :: (0x80 + (c.toNat / 0x40) % 0x40)
          :: (0x80 + c.toNat % 0x40) :: bs) = _
        rw [utf8DecodeAux]
        rw [if_neg (by omega), if_neg (by omega), if_neg (by omega), if_pos (by omega)]
        rw [utf8DecodeAux]
        rw [if_pos (by simp [contByte]; omega)]
        simp only []
        rw [if_neg (by omega)]
        rw [utf8DecodeAux]
        rw [if_pos (by simp [contByte]; omega)]
        simp only []
        rw [if_pos trivial]
        have harith : ((0xE0 + c.toNat / 0x1000 - 0xE0) * 0x40
            + (0x80 + (c.toNat / 0x40) % 0x40 - 0x80)) * 0x40
            + (0x80 + c.toNat % 0x40 - 0x80) = c.toNat := by omega
        rw [harith]
        rw [if_pos (by omega), Char.ofNat_toNat]
      · have hb : utf8Bytes1 c = [0xF0 + c.toNat / 0x40000, 0x80 + (c.toNat / 0x1000) % 0x40,
            0x80 + (c.toNat / 0x40) % 0x40, 0x80 + c.toNat % 0x40] := by
          simp only [utf8Bytes1]
          rw [if_neg h1, if_neg h2, if_neg h3]
        rw [hb]
        show utf8DecodeAux none ((0xF0 + c.toNat / 0x40000) :: (0x80 + (c.toNat / 0x1000) % 0x40)
          :: (0x80 + (c.toNat / 0x40) % 0x40) :: (0x80 + c.toNat % 0x40) :: bs) = _
        rw [utf8DecodeAux]
        rw [if_neg (by omega), if_neg (by omega), if_neg (by omega), if_neg (by omega),
          if_pos (by omega)]
        rw [utf8DecodeAux]
        rw [if_pos (by simp [contByte]; omega)]
        simp only []
        rw [if_neg (by omega)]
        rw [utf8DecodeAux]
        rw [if_pos (by simp [contByte]; omega)]
        simp only []
        rw [if_neg (by omega)]
        rw [utf8DecodeAux]
        rw [if_pos (by simp [contByte]; omega)]
        simp only []
        rw [if_pos trivial]
        have hV : c.toNat < 0x110000 := by rcases hv with h | h; omega; exact h.2
        have harith : (((0xF0 + c.toNat / 0x40000 - 0xF0) * 0x40
            + (0x80 + (c.toNat / 0x1000) % 0x40 - 0x80)) * 0x40
            + (0x80 + (c.toNat / 0x40) % 0x40 - 0x80)) * 0x40
            + (0x80 + c.toNat % 0x40 - 0x80) = c.toNat := by omega
        rw [harith]
        rw [if_pos (by omega), Char.ofNat_toNat]

theorem utf8Decode_utf8Bytes_append (s : List Char) (bs : List Nat) :
    utf8Decode (utf8Bytes s ++ bs) = (utf8Decode bs).map (fun l => s ++ l) := by
  induction s with
  | nil =>
    simp [utf8Bytes]
  | cons c t ih =>
    have : utf8Bytes (c :: t) = utf8Bytes1 c ++ utf8Bytes t := by simp [utf8Bytes]
    rw [this, List.append_assoc, utf8Decode_utf8Bytes1, ih]
    cases utf8Decode bs <;> simp

theorem utf8Decode_utf8Bytes (s : List Char) : utf8Decode (utf8Bytes s) = some s := by
  have h := utf8Decode_utf8Bytes_append s []
  rw [List.append_nil] at h
  rw [h]
  show Option.map _ (utf8DecodeAux none []) = _
  rw [utf8DecodeAux]
  simp

/-! ### Lemmas: percent-coding roundtrip -/

theorem splitOnChar_ne_nil (sep : Char) (l : List Char) : splitOnChar sep l ≠ [] := by
  cases l with
  | nil => simp [splitOnChar]
  | cons c rest =>
    rw [splitOnChar]
    rcases h : splitOnChar sep rest with _ | ⟨h1, t1⟩
    · simp
    · by_cases hc : c = sep <;> simp [hc]

theorem splitOnChar_sepfree (sep : Char) (f : List Char) (h : sep ∉ f) :
    splitOnChar sep f = [f] := by
  induction f with
  | nil => simp [splitOnChar]
  | cons c rest ih =>
    have hc : c ≠ sep := fun hh => h (hh ▸ List.mem_cons_self c rest)
    have hrest : sep ∉ rest := fun hh => h (List.mem_cons_of_mem c hh)
    rw [splitOnChar, ih hrest]
    simp [hc]

theorem splitOnChar_append_sep (sep : Char) (f r : List Char) (h : sep ∉ f) :
    splitOnChar sep (f ++ sep :: r) = f :: splitOnChar sep r := by
  induction f with
  | nil =>
    rw [List.nil_append, splitOnChar]
    rcases hr : splitOnChar sep r with _ | ⟨h1, t1⟩
    · exact absurd hr (splitOnChar_ne_nil sep r)
    · simp
  | cons c rest ih =>
    have hc : c ≠ sep := fun hh => h (hh ▸ List.mem_cons_self c rest)
    have hrest : sep ∉ rest := fun hh => h (List.mem_cons_of_mem c hh)
    rw [List.cons_append, splitOnChar, ih hrest]
    simp [hc]

theorem pctDecodeBytes_nil : pctDecodeBytes [] = [] := by
  rw [pctDecodeBytes]
  simp [splitOnChar, utf8Bytes]

theorem pctDecodeBytes_cons_safe (c : Char) (t : List Char) (h : c ≠ '%') :
    pctDecodeBytes (c :: t) = utf8Bytes1 c ++ pctDecodeBytes t := by
  rw [pctDecodeBytes, pctDecodeBytes]
  rw [splitOnChar]
  rcases ht : splitOnChar '%' t with _ | ⟨h1, t1⟩
  · exact absurd ht (splitOnChar_ne_nil '%' t)
  · simp only [if_neg h]
    have : utf8Bytes (c :: h1) = utf8Bytes1 c ++ utf8Bytes h1 := by simp [utf8Bytes]
    rw [this, List.append_assoc]

theorem hexVal_ne_pct (c : Char) (a : Nat) (h : hexVal c = some a) : c ≠ '%' := by
  intro hc
  subst hc
  simp [hexVal] at h

theorem pctDecodeBytes_escape (h1 h2 : Char) (a b : Nat) (t : List Char)
    (ha : hexVal h1 = some a) (hb : hexVal h2 = some b) :
    pctDecodeBytes ('%' :: h1 :: h2 :: t) = (0x10 * a + b) :: pctDecodeBytes t := by
  rw [pctDecodeBytes, pctDecodeBytes]
  have e1 : splitOnChar '%' ('%' :: h1 :: h2 :: t) = [] :: splitOnChar '%' (h1 :: h2 :: t) := by
    rw [splitOnChar]
    rcases hr : splitOnChar '%' (h1 :: h2 :: t) with _ | ⟨x, y⟩
    · exact absurd hr (splitOnChar_ne_nil _ _)
    · simp
  rw [e1]
  rcases ht : splitOnChar '%' t with _ | ⟨x, y⟩
  · exact absurd ht (splitOnChar_ne_nil '%' t)
  · have e2 : splitOnChar '%' (h1 :: h2 :: t) = (h1 :: h2 :: x) :: y := by
      rw [splitOnChar, splitOnChar, ht]
      simp [if_neg (hexVal_ne_pct h1 a ha), if_neg (hexVal_ne_pct h2 b hb)]
    rw [e2]
    show utf8Bytes [] ++ (pctItem (h1 :: h2 :: x) ++ y.flatMap pctItem)
      = (0x10 * a + b) :: (utf8Bytes x ++ y.flatMap pctItem)
    rw [pctItem]
    simp only [ha, hb]
    simp [utf8Bytes]

theorem char_toNat_lt (c : Char) : c.toNat < 0x110000 := by
  rcases char_valid_ranges c with h | h
  · omega
  · exact h.2

theorem utf8Bytes1_lt (c : Char) : ∀ b ∈ utf8Bytes1 c, b < 0x100 := by
  intro b hb
  have hv := char_toNat_lt c
  by_cases h1 : c.toNat < 0x80
  · simp only [utf8Bytes1, if_pos h1] at hb
    simp at hb
    omega
  · by_cases h2 : c.toNat < 0x800
    · simp only [utf8Bytes1, if_neg h1, if_pos h2] at hb
      simp at hb
      rcases hb with hb | hb <;> omega
    · by_cases h3 : c.toNat < 0x10000
      · simp only [utf8Bytes1, if_neg h1, if_neg h2, if_pos h3] at hb
        simp at hb
        rcases hb with hb | hb | hb <;> omega
      · simp only [utf8Bytes1, if_neg h1, if_neg h2, if_neg h3] at hb
        simp at hb
        rcases hb with hb | hb | hb | hb <;> omega

theorem hexVal_hexDigitChar (n : Nat) (h : n < 0x10) : hexVal (hexDigitChar n) = some n := by
  interval_cases n <;> decide

theorem pctDecodeBytes_pctTriple (b : Nat) (hb : b < 0x100) (t : List Char) :
    pctDecodeBytes (pctTriple b ++ t) = b :: pctDecodeBytes t := by
  show pctDecodeBytes ('%' :: hexDigitChar (b / 0x10) :: hexDigitChar (b % 0x10) :: t) = _
  rw [pctDecodeBytes_escape _ _ (b / 0x10) (b % 0x10) t
    (hexVal_hexDigitChar _ (by omega)) (hexVal_hexDigitChar _ (by omega))]
  have : 0x10 * (b / 0x10) + b % 0x10 = b := by omega
  rw [this]

theorem toNat_ofNat_byte (b : Nat) (h : b < 0x80) : (Char.ofNat b).toNat = b :=
  toNat_ofNat_valid b (Or.inl (by omega))

theorem ofNat_byte_ne (b : Nat) (hb : b < 0x80) (c : Char) (hc : c.toNat ≠ b) :
    Char.ofNat b ≠ c := by
  intro h
  apply hc
  rw [← h]
  exact toNat_ofNat_byte b hb

theorem utf8Bytes1_ofNat_byte (b : Nat) (h : b < 0x80) : utf8Bytes1 (Char.ofNat b) = [b] := by
  have ht := toNat_ofNat_byte b h
  simp only [utf8Bytes1, ht, if_pos h]

theorem pctDecodeBytes_quoteUnits (safe : Nat → Bool)
    (hs : ∀ b, safe b = true → b < 0x80 ∧ b ≠ 0x25) (bl : List Nat)
    (hbl : ∀ b ∈ bl, b < 0x100) (t : List Char) :
    pctDecodeBytes ((bl.flatMap (fun b => if safe b then [Char.ofNat b] else pctTriple b)) ++ t)
      = bl ++ pctDecodeBytes t := by
  induction bl with
  | nil => simp
  | cons b bl' ih =>
    have hb : b < 0x100 := hbl b (List.mem_cons_self b bl')
    have ih' := ih (fun x hx => hbl x (List.mem_cons_of_mem b hx))
    rw [List.flatMap_cons]
    by_cases hsb : safe b = true
    · rcases hs b hsb with ⟨hlt, hne⟩
      rw [if_pos hsb]
      have : ([Char.ofNat b] ++ bl'.flatMap (fun b => if safe b then [Char.ofNat b] else pctTriple b)) ++ t
          = Char.ofNat b :: (bl'.flatMap (fun b => if safe b then [Char.ofNat b] else pctTriple b) ++ t) := by
        simp
      rw [this]
      rw [pctDecodeBytes_cons_safe _ _ (ofNat_byte_ne b hlt '%'
        (by intro hh; apply hne; rw [← hh]; decide))]
      rw [utf8Bytes1_ofNat_byte b hlt, ih']
      simp
    · rw [if_neg hsb, List.append_assoc]
      rw [pctDecodeBytes_pctTriple b hb, ih']
      simp

theorem quoteSpaceSafe_ok : ∀ b, (alwaysSafeByte b || [' '].any (fun c => c.toNat = b)) = true →
    b < 0x80 ∧ b ≠ 0x25 := by
  intro b h
  simp [alwaysSafeByte] at h
  rcases h with h | h
  · rcases h with h | h | h | h | h | h | h <;> omega
  · omega

theorem pctDecodeBytes_quote (s : List Char) (t : List Char) :
    pctDecodeBytes (URLs.quote [' '] s ++ t) = utf8Bytes s ++ pctDecodeBytes t := by
  rw [URLs.quote, quoteBytes]
  exact pctDecodeBytes_quoteUnits _ quoteSpaceSafe_ok (utf8Bytes s)
    (fun b hb => by
      rw [utf8Bytes] at hb
      rcases List.mem_flatMap.mp hb with ⟨c, _, hc⟩
      exact utf8Bytes1_lt c b hc) t

theorem unquote_quote (s : List Char) : URLs.unquote (URLs.quote [' '] s) = some s := by
  rw [URLs.unquote]
  have h := pctDecodeBytes_quote s []
  rw [List.append_nil, pctDecodeBytes_nil, List.append_nil] at h
  rw [h]
  exact utf8Decode_utf8Bytes s

theorem hexDigitChar_mem (n : Nat) (h : n < 0x10) :
    hexDigitChar n ∈ "0123456789ABCDEF".data := by
  interval_cases n <;> decide

theorem mem_quote_space (c : Char) (s : List Char) (hc : c ∈ URLs.quote [' '] s) :
    c = '%' ∨ c ∈ "0123456789ABCDEF".data ∨
    (∃ b, (alwaysSafeByte b || [' '].any (fun x => x.toNat = b)) = true ∧ c = Char.ofNat b) := by
  rw [URLs.quote, quoteBytes] at hc
  rcases List.mem_flatMap.mp hc with ⟨b, hbmem, hbin⟩
  have hblt : b < 0x100 := by
    rw [utf8Bytes] at hbmem
    rcases List.mem_flatMap.mp hbmem with ⟨ch, _, hch⟩
    exact utf8Bytes1_lt ch b hch
  by_cases hsb : (alwaysSafeByte b || [' '].any (fun x => x.toNat = b)) = true
  · rw [if_pos hsb] at hbin
    simp at hbin
    exact Or.inr (Or.inr ⟨b, hsb, hbin⟩)
  · rw [if_neg hsb] at hbin
    rw [pctTriple] at hbin
    simp at hbin
    rcases hbin with h | h | h
    · exact Or.inl h
    · exact Or.inr (Or.inl (h ▸ hexDigitChar_mem _ (by omega)))
    · exact Or.inr (Or.inl (h ▸ hexDigitChar_mem _ (by omega)))

theorem quote_space_excl (c : Char) (s : List Char) (hc : c ∈ URLs.quote [' '] s) :
    c ≠ '+' ∧ c ≠ '&' ∧ c ≠ '=' := by
  rcases mem_quote_space c s hc with h | h | ⟨b, hb, hcb⟩
  · subst h
    refine ⟨by decide, by decide, by decide⟩
  · fin_cases h <;> refine ⟨by decide, by decide, by decide⟩
  · subst hcb
    rcases quoteSpaceSafe_ok b hb with ⟨hlt, _⟩
    have ht := toNat_ofNat_byte b hlt
    simp [alwaysSafeByte] at hb
    refine ⟨?_, ?_, ?_⟩ <;> intro hh
    · have hbv : b = 43 := by rw [← ht, hh]; decide
      rcases hb with hb | hb
      · rcases hb with hb | hb | hb | hb | hb | hb | hb <;> omega
      · omega
    · have hbv : b = 38 := by rw [← ht, hh]; decide
      rcases hb with hb | hb
      · rcases hb with hb | hb | hb | hb | hb | hb | hb <;> omega
      · omega
    · have hbv : b = 61 := by rw [← ht, hh]; decide
      rcases hb with hb | hb
      · rcases hb with hb | hb | hb | hb | hb | hb | hb <;> omega
      · omega

theorem quote_plus_excl (c : Char) (s : List Char) (hc : c ∈ URLs.quote_plus s) :
    c ≠ '&' ∧ c ≠ '=' := by
  rw [URLs.quote_plus] at hc
  rcases List.mem_map.mp hc with ⟨c0, hc0, hmap⟩
  rcases quote_space_excl c0 s hc0 with ⟨_, h2, h3⟩
  by_cases hsp : c0 = ' '
  · rw [if_pos hsp] at hmap
    subst hmap
    refine ⟨by decide, by decide⟩
  · rw [if_neg hsp] at hmap
    subst hmap
    exact ⟨h2, h3⟩

theorem plusMap_roundtrip (l : List Char) (h : ∀ c ∈ l, c ≠ '+') :
    (l.map (fun c => if c = ' ' then '+' else c)).map (fun c => if c = '+' then ' ' else c) = l := by
  induction l with
  | nil => simp
  | cons c t ih =>
    have hc := h c (List.mem_cons_self c t)
    have iht := ih (fun x hx => h x (List.mem_cons_of_mem c hx))
    simp only [List.map_cons, iht]
    by_cases hsp : c = ' '
    · subst hsp
      simp
    · rw [if_neg hsp, if_neg hc]

theorem unquote_plus_quote_plus (s : List Char) :
    URLs.unquote_plus (URLs.quote_plus s) = some s := by
  rw [URLs.unquote_plus, URLs.quote_plus]
  rw [plusMap_roundtrip _ (fun c hc => (quote_space_excl c s hc).1)]
  exact unquote_quote s

/-! ### Lemmas: query encode/parse roundtrip -/

theorem splitFirst?_append_sep (sep : Char) (a b : List Char) (h : sep ∉ a) :
    splitFirst? sep (a ++ sep :: b) = some (a, b) := by
  induction a with
  | nil =>
    rw [List.nil_append, splitFirst?]
    simp
  | cons c t ih =>
    have hc : c ≠ sep := fun hh => h (hh ▸ List.mem_cons_self c t)
    have ht : sep ∉ t := fun hh => h (List.mem_cons_of_mem c hh)
    rw [List.cons_append, splitFirst?, if_neg hc, ih ht]
    simp

theorem joinAmp_cons_ne (f : List Char) (fs : List (List Char)) (hf : f ≠ []) :
    joinAmp (f :: fs) ≠ [] := by
  cases fs with
  | nil => simpa [joinAmp] using hf
  | cons g gs =>
    rw [joinAmp]
    intro hh
    rcases (List.append_eq_nil).mp hh with ⟨h1, h2⟩
    exact absurd h2 (by simp)

theorem splitOnChar_joinAmp (fs : List (List Char)) (hfs : ∀ f ∈ fs, ('&') ∉ f) :
    fs ≠ [] → splitOnChar '&' (joinAmp fs) = fs := by
  induction fs with
  | nil => intro h; exact absurd rfl h
  | cons f rest ih =>
    intro _
    have hf : ('&') ∉ f := hfs f (List.mem_cons_self f rest)
    cases rest with
    | nil =>
      rw [joinAmp, splitOnChar_sepfree _ _ hf]
    | cons g gs =>
      rw [joinAmp]
      rw [splitOnChar_append_sep _ _ _ hf]
      rw [ih (fun x hx => hfs x (List.mem_cons_of_mem f hx)) (by simp)]

theorem parseQsField_enc (p : QPair) :
    parseQsField true true (URLs.quote_plus p.1 ++ '=' :: URLs.quote_plus p.2) = some [p] := by
  have hne : URLs.quote_plus p.1 ++ '=' :: URLs.quote_plus p.2 ≠ [] := by
    intro hh
    rcases (List.append_eq_nil).mp hh with ⟨_, h2⟩
    exact absurd h2 (by simp)
  rw [parseQsField, if_neg hne]
  rw [splitFirst?_append_sep _ _ _ (fun hh => (quote_plus_excl '=' p.1 hh).2 rfl)]
  simp only []
  rw [if_pos (Or.inr trivial)]
  rw [unquote_plus_quote_plus, unquote_plus_quote_plus]
  rfl

theorem encFields_mapM (L : List QPair) :
    (L.map (fun p => URLs.quote_plus p.1 ++ '=' :: URLs.quote_plus p.2)).mapM
      (parseQsField true true) = some (L.map (fun p => [p])) := by
  induction L with
  | nil => rfl
  | cons p rest ih =>
    rw [List.map_cons, List.mapM_cons, parseQsField_enc, ih]
    rfl

theorem parse_qsl_urlencode (L : List QPair) :
    parse_qsl true true (urlencode 2 L) = some L := by
  cases L with
  | nil => rfl
  | cons p rest =>
    have hfun : (fun q : QPair => URLs.applyQuote 2 q.1 ++ '=' :: URLs.applyQuote 2 q.2)
        = (fun q : QPair => URLs.quote_plus q.1 ++ '=' :: URLs.quote_plus q.2) := rfl
    rw [urlencode, hfun]
    have hnf : ∀ f ∈ (p :: rest).map (fun q => URLs.quote_plus q.1 ++ '=' :: URLs.quote_plus q.2),
        ('&') ∉ f := by
      intro f hfm hamp
      rcases List.mem_map.mp hfm with ⟨q, _, hq⟩
      subst hq
      rcases List.mem_append.mp hamp with h | h
      · exact (quote_plus_excl '&' q.1 h).1 rfl
      · rcases List.mem_cons.mp h with h | h
        · exact absurd h.symm (by decide)
        · exact (quote_plus_excl '&' q.2 h).1 rfl
    have hjoin_ne : joinAmp ((p :: rest).map (fun q => URLs.quote_plus q.1 ++ '=' :: URLs.quote_plus q.2)) ≠ [] := by
      exact joinAmp_cons_ne _ _ (by
        intro hh
        rcases (List.append_eq_nil).mp hh with ⟨_, h2⟩
        exact absurd h2 (by simp))
    rw [parse_qsl, if_neg hjoin_ne]
    rw [splitOnChar_joinAmp _ hnf (by simp)]
    rw [encFields_mapM]
    have hfl : ∀ (M : List QPair), (M.map (fun p => [p])).flatten = M := by
      intro M
      induction M with
      | nil => rfl
      | cons q t iht => simp [iht]
    simp [hfl]

/-! ### Lemmas: override_query list surgery -/

theorem overrideQueryList_nil (ql : List QPair) : overrideQueryList ql [] = ql := by
  rw [overrideQueryList]
  simp [lookupKw]

theorem lookupKw_isSome_of_mem (kv : List Char × Option (List Char))
    (kwargs : List (List Char × Option (List Char))) (h : kv ∈ kwargs) :
    (lookupKw kv.1 kwargs).isSome := by
  induction kwargs with
  | nil => cases h
  | cons x rest ih =>
    rw [lookupKw]
    by_cases hx : x.1 = kv.1
    · rw [if_pos hx]; rfl
    · rw [if_neg hx]
      rcases List.mem_cons.mp h with h | h
      · subst h; exact absurd rfl hx
      · exact ih h

theorem lookupKw_none_not_mem (k : List Char) (kwargs : List (List Char × Option (List Char)))
    (h : lookupKw k kwargs = none) : ∀ kv ∈ kwargs, kv.1 ≠ k := by
  intro kv hkv hk
  have := lookupKw_isSome_of_mem kv kwargs hkv
  rw [hk, h] at this
  simp at this

theorem replaced_filter (ql : List QPair) (kwargs : List (List Char × Option (List Char)))
    (k : List Char) :
    (ql.filterMap (fun p => match lookupKw p.1 kwargs with
      | none => some p
      | some none => none
      | some (some v) => some (p.1, v))).filter (fun p => p.1 = k)
    = match lookupKw k kwargs with
      | none => ql.filter (fun p => p.1 = k)
      | some none => []
      | some (some v) => (ql.filter (fun p => p.1 = k)).map (fun p => (k, v)) := by
  induction ql with
  | nil =>
    rcases lookupKw k kwargs with _ | _ | v <;> simp
  | cons p t ih =>
    rw [List.filterMap_cons, List.filter_cons]
    by_cases hpk : p.1 = k
    · rw [hpk]
      rcases hl : lookupKw k kwargs with _ | _ | v
      · rw [hl] at ih
        simp only [List.filter_cons, hpk]
        simp [ih, hpk]
      · rw [hl] at ih
        simp only [List.filter_cons, hpk]
        simp [ih, hpk]
      · rw [hl] at ih
        simp only [List.filter_cons, hpk]
        simp [ih, hpk]
    · rcases hl : lookupKw p.1 kwargs with _ | _ | v
      · simp only [List.filter_cons]
        simp [hpk, ih]
      · simp [hpk, ih]
      · simp [hpk, ih]

theorem appended_filter_of_none (kwargs : List (List Char × Option (List Char)))
    (present : List (List Char)) (k : List Char) (h : lookupKw k kwargs = none) :
    (kwargs.filterMap (fun kv => match kv.2 with
      | none => none
      | some v => if kv.1 ∈ present then none else some (kv.1, v))).filter (fun p => p.1 = k) = [] := by
  rw [List.filter_eq_nil_iff]
  intro p hp
  rcases List.mem_filterMap.mp hp with ⟨kv, hkv, hmatch⟩
  rcases hv : kv.2 with _ | v
  · rw [hv] at hmatch; cases hmatch
  · rw [hv] at hmatch
    dsimp only at hmatch
    by_cases hpres : kv.1 ∈ present
    · rw [if_pos hpres] at hmatch; cases hmatch
    · rw [if_neg hpres] at hmatch
      have : p.1 = kv.1 := by rw [← Option.some_inj.mp hmatch]
      simp only [this]
      exact fun hh => by
        exact absurd (of_decide_eq_true hh) (lookupKw_none_not_mem k kwargs h kv hkv)

theorem lookupKw_eq_none (k : List Char) (kwargs : List (List Char × Option (List Char)))
    (h : k ∉ kwargs.map Prod.fst) : lookupKw k kwargs = none := by
  induction kwargs with
  | nil => rfl
  | cons kv rest ih =>
    rw [lookupKw, if_neg (fun hh => h (by simp [hh.symm]))]
    exact ih (fun hh => h (by simp [hh]))

theorem appended_filter_of_kw_none (kwargs : List (List Char × Option (List Char)))
    (present : List (List Char)) (k : List Char)
    (hnd : (kwargs.map Prod.fst).Nodup) (h : lookupKw k kwargs = some none) :
    (kwargs.filterMap (fun kv => match kv.2 with
      | none => none
      | some v => if kv.1 ∈ present then none else some (kv.1, v))).filter (fun p => p.1 = k)
    = [] := by
  induction kwargs with
  | nil => cases h
  | cons kv rest ih =>
    rw [List.map_cons, List.nodup_cons] at hnd
    rw [lookupKw] at h
    rw [List.filterMap_cons]
    by_cases hk : kv.1 = k
    · rw [if_pos hk] at h
      have hv2 : kv.2 = none := Option.some_inj.mp h
      rw [hv2]
      dsimp only
      exact appended_filter_of_none rest present k
        (lookupKw_eq_none k rest (fun hh => hnd.1 (hk ▸ hh)))
    · rw [if_neg hk] at h
      have ihr := ih hnd.2 h
      rcases hv : kv.2 with _ | v
      · dsimp only
        exact ihr
      · dsimp only
        by_cases hpres : kv.1 ∈ present
        · rw [if_pos hpres]
          exact ihr
        · rw [if_neg hpres, List.filter_cons]
          rw [if_neg (by simpa using hk)]
          exact ihr

theorem appended_filter_of_kw_some (kwargs : List (List Char × Option (List Char)))
    (present : List (List Char)) (k v : List Char)
    (hnd : (kwargs.map Prod.fst).Nodup) (h : lookupKw k kwargs = some (some v)) :
    (kwargs.filterMap (fun kv => match kv.2 with
      | none => none
      | some v => if kv.1 ∈ present then none else some (kv.1, v))).filter (fun p => p.1 = k)
    = if k ∈ present then [] else [(k, v)] := by
  induction kwargs with
  | nil => cases h
  | cons kv rest ih =>
    rw [List.map_cons, List.nodup_cons] at hnd
    rw [lookupKw] at h
    rw [List.filterMap_cons]
    by_cases hk : kv.1 = k
    · rw [if_pos hk] at h
      have hv2 : kv.2 = some v := Option.some_inj.mp h
      rw [hv2]
      dsimp only
      have happrest := appended_filter_of_none rest present k
        (lookupKw_eq_none k rest (fun hh => hnd.1 (hk ▸ hh)))
      by_cases hpres : kv.1 ∈ present
      · rw [if_pos hpres]
        rw [hk] at hpres
        rw [if_pos hpres]
        exact happrest
      · rw [if_neg hpres]
        rw [hk] at hpres
        rw [if_neg hpres, List.filter_cons]
        rw [if_pos (by simp [hk]), happrest, hk]
    · rw [if_neg hk] at h
      have ihr := ih hnd.2 h
      rcases hv : kv.2 with _ | w
      · dsimp only
        exact ihr
      · dsimp only
        by_cases hpres : kv.1 ∈ present
        · rw [if_pos hpres]
          exact ihr
        · rw [if_neg hpres, List.filter_cons]
          rw [if_neg (by simpa using hk)]
          exact ihr

theorem mem_map_fst_iff_filter (l : List QPair) (k : List Char) :
    k ∈ l.map Prod.fst ↔ l.filter (fun p => p.1 = k) ≠ [] := by
  induction l with
  | nil => simp
  | cons p t ih =>
    rw [List.map_cons, List.filter_cons]
    by_cases hk : p.1 = k
    · simp [hk]
    · rw [if_neg (by simpa using hk)]
      simp only [List.mem_cons]
      constructor
      · intro hh
        rcases hh with hh | hh
        · exact absurd hh.symm hk
        · exact ih.mp hh
      · intro hh
        exact Or.inr (ih.mpr hh)

theorem overrideQueryList_filter_key (ql : List QPair)
    (kwargs : List (List Char × Option (List Char))) (k : List Char)
    (hnd : (kwargs.map Prod.fst).Nodup) :
    (overrideQueryList ql kwargs).filter (fun p => p.1 = k)
    = match lookupKw k kwargs with
      | none => ql.filter (fun p => p.1 = k)
      | some none => []
      | some (some v) =>
        if ql.filter (fun p => p.1 = k) = [] then [(k, v)]
        else (ql.filter (fun p => p.1 = k)).map (fun p => (k, v)) := by
  rw [overrideQueryList]
  rw [List.filter_append]
  rw [replaced_filter]
  rcases hl : lookupKw k kwargs with _ | _ | v
  · rw [appended_filter_of_none _ _ _ hl, List.append_nil]
  · rw [appended_filter_of_kw_none _ _ _ hnd hl]
    simp
  · rw [appended_filter_of_kw_some _ _ _ v hnd hl]
    have hpresiff := mem_map_fst_iff_filter (ql.filterMap (fun p =>
      match lookupKw p.1 kwargs with
      | none => some p
      | some none => none
      | some (some v) => some (p.1, v))) k
    rw [replaced_filter ql kwargs k, hl] at hpresiff
    by_cases hql : ql.filter (fun p => p.1 = k) = []
    · have hnotpres : k ∉ (ql.filterMap (fun p =>
          match lookupKw p.1 kwargs with
          | none => some p
          | some none => none
          | some (some v) => some (p.1, v))).map Prod.fst := by
        intro hh
        exact (hpresiff.mp hh) (by simp [hql])
      simp [hnotpres, hql]
    · have hpres : k ∈ (ql.filterMap (fun p =>
          match lookupKw p.1 kwargs with
          | none => some p
          | some none => none
          | some (some v) => some (p.1, v))).map Prod.fst := by
        apply hpresiff.mpr
        intro hh
        rcases List.map_eq_nil_iff.mp hh with hh2
        exact hql hh2
      simp [hpres, hql]

theorem overrideQueryList_untouched (ql : List QPair)
    (kwargs : List (List Char × Option (List Char))) :
    (overrideQueryList ql kwargs).filter (fun p => lookupKw p.1 kwargs = none)
    = ql.filter (fun p => lookupKw p.1 kwargs = none) := by
  rw [overrideQueryList, List.filter_append]
  have happ : (kwargs.filterMap (fun kv => match kv.2 with
      | none => none
      | some v => if kv.1 ∈ (ql.filterMap (fun p => match lookupKw p.1 kwargs with
          | none => some p
          | some none => none
          | some (some v) => some (p.1, v))).map Prod.fst then none
        else some (kv.1, v))).filter (fun p => lookupKw p.1 kwargs = none) = [] := by
    rw [List.filter_eq_nil_iff]
    intro p hp
    rcases List.mem_filterMap.mp hp with ⟨kv, hkv, hmatch⟩
    rcases hv : kv.2 with _ | v
    · rw [hv] at hmatch; cases hmatch
    · rw [hv] at hmatch
      dsimp only at hmatch
      by_cases hpres : kv.1 ∈ (ql.filterMap (fun p => match lookupKw p.1 kwargs with
          | none => some p
          | some none => none
          | some (some v) => some (p.1, v))).map Prod.fst
      · rw [if_pos hpres] at hmatch; cases hmatch
      · rw [if_neg hpres] at hmatch
        have hp1 : p.1 = kv.1 := by rw [← Option.some_inj.mp hmatch]
        intro hdec
        have hnone : lookupKw p.1 kwargs = none := by simpa using hdec
        rw [hp1] at hnone
        have := lookupKw_isSome_of_mem kv kwargs hkv
        rw [hnone] at this
        simp at this
  rw [happ, List.append_nil]
  clear happ
  induction ql with
  | nil => simp
  | cons p t ih =>
    rw [List.filterMap_cons, List.filter_cons]
    rcases hl : lookupKw p.1 kwargs with _ | _ | v
    · dsimp only
      rw [List.filter_cons]
      rw [if_pos (by simpa using hl), if_pos (by simpa using hl), ih]
    · dsimp only
      rw [if_neg (by simp [hl]), ih]
    · dsimp only
      rw [List.filter_cons]
      rw [if_neg (by simp [hl]), if_neg (by simp [hl]), ih]

/-! ### Lemmas: stable query sort -/

theorem mem_sortInsert (x y : (Int × Int) × QPair) (l : List ((Int × Int) × QPair)) :
    y ∈ sortInsert x l ↔ y = x ∨ y ∈ l := by
  induction l with
  | nil => simp [sortInsert]
  | cons z rest ih =>
    rw [sortInsert]
    by_cases hc : x.1.1 < z.1.1 ∨ (x.1.1 = z.1.1 ∧ x.1.2 < z.1.2)
    · rw [if_pos hc]
      simp [List.mem_cons]
    · rw [if_neg hc]
      simp only [List.mem_cons, ih]
      tauto

theorem mem_sortPairs (y : (Int × Int) × QPair) (l : List ((Int × Int) × QPair)) :
    y ∈ sortPairs l ↔ y ∈ l := by
  induction l with
  | nil => simp [sortPairs]
  | cons x rest ih =>
    rw [sortPairs, mem_sortInsert]
    simp only [List.mem_cons, ih]

theorem mem_sortQuery (w : List Char → Int) (ql : List QPair) (p : QPair) :
    p ∈ sortQuery w ql ↔ p ∈ ql := by
  rw [sortQuery]
  constructor
  · intro hp
    rcases List.mem_map.mp hp with ⟨e, he, hxp⟩
    have := (mem_sortPairs e _).mp he
    rcases List.mem_map.mp this with ⟨ip, hip, hie⟩
    have he2 : e.2 = ip.2 := by rw [← hie]
    rw [← hxp, he2]
    have := List.mem_enum_iff_get?.mp hip
    rw [List.get?_eq_some] at this
    rcases this with ⟨hlt, hget⟩
    rw [← hget]
    exact List.get_mem ql ip.1 hlt
  · intro hp
    rcases List.mem_iff_get.mp hp with ⟨i, hi⟩
    apply List.mem_map.mpr
    refine ⟨((w p.1, (i : Int)), p), ?_, rfl⟩
    apply (mem_sortPairs _ _).mpr
    apply List.mem_map.mpr
    refine ⟨(i.1, p), ?_, by rw [← hi]⟩
    apply List.mem_enum_iff_get?.mpr
    show ql.get? i.1 = some p
    rw [List.get?_eq_get i.2, hi]

/-! ### Claim theorems -/

/-- Claim C1: for all Tag values, equality holds iff `name` and `url_token`
agree; the type, canonical, usages, date and reference-set fields never
affect equality (equality is the `hash_id` comparison of the spec-modelled
`_CustomHash` contract). -/
theorem C1_tag_eq_iff_identity (a b : Tag) :
    Tag.beq a b = true ↔ (a.name = b.name ∧ a.url_token = b.url_token) := by
  rw [Tag.beq, decide_eq_true_eq, Tag.hash_id, Tag.hash_id, Prod.mk.injEq]

/-- Claim C2 counterexample: on the query list `a=1&a=2` with the override
`a=3`, `override_query` rewrites *both* occurrences in place, producing
`a=3&a=3` — it does not keep a single first occurrence and drop the rest,
as the claim states. -/
theorem C2_counterexample :
    overrideQueryList [("a".data, "1".data), ("a".data, "2".data)] [("a".data, some "3".data)]
      = [("a".data, "3".data), ("a".data, "3".data)] ∧
    overrideQueryList [("a".data, "1".data), ("a".data, "2".data)] [("a".data, some "3".data)]
      ≠ [("a".data, "3".data)] := by
  constructor
  · decide
  · decide

/-- Claim C2 (amended): for each override key (`kwargs` has distinct keys,
as a Python dict): a `none` override drops every pair with that key; a
value override rewrites every occurrence of that key in place (duplicates
are kept, each receiving the override value), or appends one new pair when
the key is absent; pairs whose keys are not overridden pass through
unchanged in their original relative order. -/
theorem C2_override_query_pairs (ql : List QPair)
    (kwargs : List (List Char × Option (List Char))) (k : List Char)
    (hnd : (kwargs.map Prod.fst).Nodup) :
    ((lookupKw k kwargs = some none →
        (overrideQueryList ql kwargs).filter (fun p => p.1 = k) = []) ∧
      (∀ v, lookupKw k kwargs = some (some v) →
        (overrideQueryList ql kwargs).filter (fun p => p.1 = k)
          = (if ql.filter (fun p => p.1 = k) = [] then [(k, v)]
            else (ql.filter (fun p => p.1 = k)).map (fun p => (k, v)))) ∧
      (lookupKw k kwargs = none →
        (overrideQueryList ql kwargs).filter (fun p => p.1 = k)
          = ql.filter (fun p => p.1 = k))) ∧
    (overrideQueryList ql kwargs).filter (fun p => lookupKw p.1 kwargs = none)
      = ql.filter (fun p => lookupKw p.1 kwargs = none) := by
  refine ⟨⟨?_, ?_, ?_⟩, overrideQueryList_untouched ql kwargs⟩
  · intro h
    rw [overrideQueryList_filter_key ql kwargs k hnd, h]
  · intro v h
    rw [overrideQueryList_filter_key ql kwargs k hnd, h]
  · intro h
    rw [overrideQueryList_filter_key ql kwargs k hnd, h]

/-- Concrete instance of the amended claim C2: overriding the absent key
`b` appends it, on the query list `a=1`. -/
theorem C2_witness :
    (overrideQueryList [("a".data, "1".data)] [("b".data, some "2".data), ("c".data, none)]).filter
      (fun p => p.1 = "b".data) = [("b".data, "2".data)] := by
  have h := (C2_override_query_pairs [("a".data, "1".data)]
    [("b".data, some "2".data), ("c".data, none)] "b".data (by decide)).1.2.1 "2".data (by decide)
  rw [h]
  decide

/-- Claim C3: in a multi-page crawl, any fetched page (2..n) with a status
other than 200 makes `load_tags` fail (`none`: the raised assert), so
nothing — in particular no cache file — is produced; conversely a crawl
that returns a collection saw only 200s, and writes the cache exactly when
asked to. -/
theorem C3_load_tags_fail_fast (collName : List Char) (firstPage : List Tag) (n : Int)
    (otherPages : List FetchedPage) (cache : Bool) :
    ((∃ p ∈ otherPages, p.code ≠ 200) →
      TagSearch.load_tags collName firstPage (some n) otherPages cache = none) ∧
    (∀ s b, TagSearch.load_tags collName firstPage (some n) otherPages cache = some (s, b) →
      (∀ p ∈ otherPages, p.code = 200) ∧ b = cache) := by
  constructor
  · rintro ⟨p, hp, hcode⟩
    rw [TagSearch.load_tags]
    by_cases hn : n ≤ 1
    · rw [if_pos hn]
    · rw [if_neg hn, if_pos (List.any_eq_true.mpr ⟨p, hp, by simpa using hcode⟩)]
  · intro s b h
    rw [TagSearch.load_tags] at h
    by_cases hn : n ≤ 1
    · rw [if_pos hn] at h
      cases h
    · rw [if_neg hn] at h
      by_cases hany : otherPages.any (fun p => p.code != 200) = true
      · rw [if_pos hany] at h
        cases h
      · rw [if_neg hany] at h
        refine ⟨?_, ?_⟩
        · intro p hp
          by_contra hne
          exact hany (List.any_eq_true.mpr ⟨p, hp, by simpa using hne⟩)
        · exact ((Prod.mk.injEq _ _ _ _).mp (Option.some_inj.mp h).symm).2

/-- Concrete instance of claim C3: a page-2 fetch with status 500 aborts
the crawl with nothing persisted. -/
theorem C3_witness :
    TagSearch.load_tags "q".data [] (some 3) [⟨500, []⟩] true = none :=
  (C3_load_tags_fail_fast "q".data [] 3 [⟨500, []⟩] true).1 (by decide)

/-- Claim C6: merging tags whose identity `(name, url_token)` is already
present leaves the `TagSet` unchanged — the existing element is kept even
when the incoming tag carries different type/canonical/usages/date/refs
(first-writer-wins of Python set insertion). -/
theorem C6_tagset_merge_idempotent (s : TagSetM) (ts : List Tag)
    (h : ∀ t ∈ ts, ∃ u ∈ s.tags, Tag.beq u t = true) :
    TagSetM.update s ts = s := by
  induction ts with
  | nil => rfl
  | cons t rest ih =>
    have hins : TagSetM.insertTag s t = s := by
      rcases h t (List.mem_cons_self t rest) with ⟨u, hu, hbeq⟩
      rw [TagSetM.insertTag, if_pos (List.any_eq_true.mpr ⟨u, hu, hbeq⟩)]
    show TagSetM.update (TagSetM.insertTag s t) rest = s
    rw [hins]
    exact ih (fun x hx => h x (List.mem_cons_of_mem t hx))

/-- Concrete instance of claim C6: a set holding a thin tag absorbs a rich
tag of the same identity without change. -/
theorem C6_witness :
    TagSetM.update
      ⟨"q".data, [⟨TagTypeU.unset, "n".data, "t".data, none, -1, none, [], [], [], [], []⟩]⟩
      [⟨TagTypeU.known TagType.Fandom, "n".data, "t".data, some true, 99, some 5,
        ["s".data], [], [], [], []⟩]
    = ⟨"q".data, [⟨TagTypeU.unset, "n".data, "t".data, none, -1, none, [], [], [], [], []⟩]⟩ :=
  C6_tagset_merge_idempotent _ _ (by decide)

/-- Claim C9 counterexample: on the query `a=%252B`, `override_query` with
no overrides and no sort decodes one escaping level (the result query is
`a=%2B`), so the result's parsed pairs `[(a, +)]` differ from the input's
parsed pairs `[(a, %2B)]`. -/
theorem C9_counterexample :
    URLs.overrideQuery true true 2 2 [] none
      ⟨"https".data, "archiveofourown.org".data, "/tags/search".data, "a=%252B".data, []⟩
    = some ⟨"https".data, "archiveofourown.org".data, "/tags/search".data, "a=%2B".data, []⟩ ∧
    parse_qsl true true "a=%2B".data ≠ parse_qsl true true "a=%252B".data := by
  constructor
  · decide
  · decide

/-- Claim C9 (amended): with no overrides and no sort function,
`override_query` keeps scheme/host/path/fragment unchanged and re-encodes
exactly the pair list it decoded from the input query (one unquote level is
consumed); parsing the result back yields that same pair list, in the same
order. -/
theorem C9_override_query_noop (s : SplitRes) (ql : List QPair)
    (h : URLs.queryPipeline true true 2 s.query = some ql) :
    URLs.overrideQuery true true 2 2 [] none s
      = some ⟨s.scheme, s.netloc, s.path, urlencode 2 ql, s.fragment⟩ ∧
    parse_qsl true true (urlencode 2 ql) = some ql := by
  constructor
  · rw [URLs.overrideQuery, h]
    simp [overrideQueryList_nil]
  · exact parse_qsl_urlencode ql

/-- Concrete instance of the amended claim C9: the already-canonical query
`a=1&b=2` round-trips unchanged. -/
theorem C9_witness :
    URLs.overrideQuery true true 2 2 [] none
      ⟨"https".data, "archiveofourown.org".data, "/tags/search".data, "a=1&b=2".data, []⟩
      = some ⟨"https".data, "archiveofourown.org".data, "/tags/search".data,
        urlencode 2 [("a".data, "1".data), ("b".data, "2".data)], []⟩ ∧
    parse_qsl true true (urlencode 2 [("a".data, "1".data), ("b".data, "2".data)])
      = some [("a".data, "1".data), ("b".data, "2".data)] :=
  C9_override_query_noop
    ⟨"https".data, "archiveofourown.org".data, "/tags/search".data, "a=1&b=2".data, []⟩
    [("a".data, "1".data), ("b".data, "2".data)] (by decide)

/-- Claim C5: every Tag built by `new_instance` has a non-empty `name` and
a `url_token` free of `/`; an empty name fails the assert, and a token that
still contains `/` after normalization fails instead of producing a
violating Tag. -/
theorem C5_new_instance_invariants :
    (∀ now ty name tok canonical usages date sy pa ch su me t,
      Tag.new_instance now ty name tok canonical usages date sy pa ch su me = some t →
        t.name ≠ [] ∧ ('/') ∉ t.url_token) ∧
    (∀ now ty tok canonical usages date sy pa ch su me,
      Tag.new_instance now ty [] tok canonical usages date sy pa ch su me = none) ∧
    (∀ now ty name tok canonical usages date sy pa ch su me ct,
      Tag.cleanUrlToken tok name = some ct → ('/') ∈ ct →
        Tag.new_instance now ty name (some tok) canonical usages date sy pa ch su me = none) := by
  refine ⟨?_, ?_, ?_⟩
  · intro now ty name tok canonical usages date sy pa ch su me t h
    rw [Tag.new_instance.eq_def] at h
    by_cases hname : name = []
    · rw [if_pos hname] at h
      cases h
    · rw [if_neg hname] at h
      rcases tok with _ | tok0
      · cases h
      · dsimp only at h
        rcases hct : Tag.cleanUrlToken tok0 name with _ | ct <;> rw [hct] at h
        · cases h
        · dsimp only at h
          by_cases hsl : ('/') ∈ ct
          · rw [if_pos hsl] at h
            cases h
          · rw [if_neg hsl] at h
            rcases h1 : Tag.cleanRef sy with _ | sy2 <;> rw [h1] at h
            · cases h
            rcases h2 : Tag.cleanRef pa with _ | pa2 <;> rw [h2] at h
            · cases h
            rcases h3 : Tag.cleanRef ch with _ | ch2 <;> rw [h3] at h
            · cases h
            rcases h4 : Tag.cleanRef su with _ | su2 <;> rw [h4] at h
            · cases h
            rcases h5 : Tag.cleanRef me with _ | me2 <;> rw [h5] at h
            · cases h
            dsimp only at h
            obtain rfl := Option.some_inj.mp h
            exact ⟨hname, hsl⟩
  · intro now ty tok canonical usages date sy pa ch su me
    rw [Tag.new_instance.eq_def]
    rw [if_pos rfl]
  · intro now ty name tok canonical usages date sy pa ch su me ct hct hsl
    rw [Tag.new_instance.eq_def]
    by_cases hname : name = []
    · rw [if_pos hname]
    · rw [if_neg hname]
      dsimp only
      rw [hct]
      dsimp only
      rw [if_pos hsl]

/-- Concrete instance of claim C5: a token given as a full tag URL with a
trailing `/works` segment normalizes to a slash-free token, and the built
tag satisfies both invariants. -/
theorem C5_witness :
    Tag.new_instance 0 TagTypeU.unset "Mass Effect".data
        (some "/tags/Mass%20Effect/works".data) none none none [] [] [] [] []
      = some ⟨TagTypeU.unset, "Mass Effect".data, "Mass Effect".data,
          none, -1, none, [], [], [], [], []⟩ ∧
    "Mass Effect".data ≠ [] ∧ ('/') ∉ "Mass Effect".data := by
  refine ⟨by decide, ?_⟩
  have h := (C5_new_instance_invariants).1 0 TagTypeU.unset "Mass Effect".data
    (some "/tags/Mass%20Effect/works".data) none none none [] [] [] [] []
    ⟨TagTypeU.unset, "Mass Effect".data, "Mass Effect".data, none, -1, none, [], [], [], [], []⟩
    (by decide)
  exact h

/-- Claim C7: `sorting_key` orders tags totally (a linear order on keys:
total, transitive, and antisymmetric up to key equality — two tags with
equal keys share their `(name, url_token)` identity); a canonical tag
always sorts strictly before any non-canonical tag regardless of usage
counts; within equal canonical status tags order by descending usages, and
on full ties of canonical status, usages, type string, name and token, the
more recently dated tag comes first. -/
theorem C7_sorting_key_order :
    (∀ a b : Tag, a.sorting_key ≤ b.sorting_key ∨ b.sorting_key ≤ a.sorting_key) ∧
    (∀ a b c : Tag, a.sorting_key ≤ b.sorting_key → b.sorting_key ≤ c.sorting_key →
      a.sorting_key ≤ c.sorting_key) ∧
    (∀ a b : Tag, a.sorting_key ≤ b.sorting_key → b.sorting_key ≤ a.sorting_key →
      a.hash_id = b.hash_id) ∧
    (∀ a b : Tag, a.canonical = some true → ¬b.canonical = some true →
      a.sorting_key < b.sorting_key) ∧
    (∀ a b : Tag, a.notCanonical = b.notCanonical → b.usages < a.usages →
      a.sorting_key < b.sorting_key) ∧
    (∀ a b : Tag, a.notCanonical = b.notCanonical → a.usages = b.usages →
      Tag.typeString a.type = Tag.typeString b.type → a.name = b.name →
      a.url_token = b.url_token →
      b.date.getD zero_day < a.date.getD zero_day →
      a.sorting_key < b.sorting_key) := by
  refine ⟨fun a b => le_total _ _, fun a b c => le_trans, ?_, ?_, ?_, ?_⟩
  · intro a b hab hba
    have hk := le_antisymm hab hba
    rw [Tag.sorting_key, Tag.sorting_key] at hk
    simp only [toLex_inj, Prod.mk.injEq] at hk
    rw [Tag.hash_id, Tag.hash_id, hk.2.2.2.1, hk.2.2.2.2.1]
  · intro a b hca hcb
    have ha : a.notCanonical = false := by simp [Tag.notCanonical, hca]
    have hb : b.notCanonical = true := by simp [Tag.notCanonical, hcb]
    rw [Tag.sorting_key, Tag.sorting_key, ha, hb]
    exact (Prod.Lex.lt_iff _ _).mpr (Or.inl (show (false : Bool) < true by decide))
  · intro a b hc hu
    rw [Tag.sorting_key, Tag.sorting_key, hc]
    exact (Prod.Lex.lt_iff _ _).mpr (Or.inr ⟨rfl,
      (Prod.Lex.lt_iff _ _).mpr (Or.inl (show -a.usages < -b.usages by omega))⟩)
  · intro a b hc hu hty hn htok hd
    rw [Tag.sorting_key, Tag.sorting_key, hc, hu, hty, hn, htok]
    refine (Prod.Lex.lt_iff _ _).mpr (Or.inr ⟨rfl,
      (Prod.Lex.lt_iff _ _).mpr (Or.inr ⟨rfl,
      (Prod.Lex.lt_iff _ _).mpr (Or.inr ⟨rfl,
      (Prod.Lex.lt_iff _ _).mpr (Or.inr ⟨rfl,
      (Prod.Lex.lt_iff _ _).mpr (Or.inr ⟨rfl, ?_⟩)⟩)⟩)⟩)⟩)
    show Tag.dateKey a.date < Tag.dateKey b.date
    rw [Tag.dateKey, Tag.dateKey]
    omega

/-- Concrete instance of claim C7: a canonical tag with 5 usages sorts
before a non-canonical tag with 1000 usages. -/
theorem C7_witness :
    Tag.sorting_key ⟨TagTypeU.unset, "a".data, "a".data, some true, 5, none, [], [], [], [], []⟩
      < Tag.sorting_key ⟨TagTypeU.unset, "b".data, "b".data, some false, 1000, none,
          [], [], [], [], []⟩ :=
  (C7_sorting_key_order).2.2.2.1 _ _ rfl (by decide)

/-! ### Lemmas: page URLs -/

theorem mapM_some_of {α β : Type} (l : List α) (f : α → Option β) (g : α → β)
    (h : ∀ x ∈ l, f x = some (g x)) : l.mapM f = some (l.map g) := by
  induction l with
  | nil => rfl
  | cons x rest ih =>
    rw [List.mapM_cons, h x (List.mem_cons_self x rest),
      ih (fun y hy => h y (List.mem_cons_of_mem x hy))]
    rfl

theorem overrideQuery_some (kwargs : List (List Char × Option (List Char)))
    (w : List Char → Int) (s : SplitRes) (ql : List QPair)
    (h : URLs.queryPipeline true true 2 s.query = some ql) :
    URLs.overrideQuery true true 2 2 kwargs (some w) s
      = some ⟨s.scheme, s.netloc, s.path,
          urlencode 2 (sortQuery w (overrideQueryList ql kwargs)), s.fragment⟩ := by
  rw [URLs.overrideQuery, h]
  rfl

theorem pageRange_false_eq (n : Int) (hn : 1 ≤ n) :
    pageRange n false = (List.range n.toNat).map (fun i => 1 + Int.ofNat i) := by
  rw [pageRange]
  have h2 : (max 1 n + 1 - 1).toNat = n.toNat := by omega
  rw [h2]

theorem pageRange_true_eq (n : Int) :
    pageRange n true = (List.range (n - 1).toNat).map (fun i => 2 + Int.ofNat i) := by
  rw [pageRange]
  have h2 : (max 1 n + 1 - 2).toNat = (n - 1).toNat := by omega
  rw [h2]

theorem pageKwargs_nodup (x : Int) : ((TagSearch.pageKwargs x).map Prod.fst).Nodup := by
  rw [TagSearch.pageKwargs]
  by_cases hx : x > 1
  · rw [if_pos hx]
    show (["page".data, "utf8".data] : List (List Char)).Nodup
    decide
  · rw [if_neg hx]
    show (["page".data, "utf8".data] : List (List Char)).Nodup
    decide

theorem lookupKw_page_one : lookupKw "page".data (TagSearch.pageKwargs 1) = some none := by
  decide

theorem lookupKw_page_gt (x : Int) (hx : 1 < x) :
    lookupKw "page".data (TagSearch.pageKwargs x) = some (some (Int.repr x).data) := by
  rw [TagSearch.pageKwargs, if_pos hx, lookupKw, if_pos rfl]

theorem pageList_no_page (ql : List QPair)
    (p : QPair) (hp : p ∈ sortQuery TagSearch.queryWeight
      (overrideQueryList ql (TagSearch.pageKwargs 1))) : p.1 ≠ "page".data := by
  intro hk
  have hmem := (mem_sortQuery _ _ _).mp hp
  have hfilter := overrideQueryList_filter_key ql (TagSearch.pageKwargs 1) "page".data
    (pageKwargs_nodup 1)
  rw [lookupKw_page_one] at hfilter
  dsimp only at hfilter
  have : p ∈ (overrideQueryList ql (TagSearch.pageKwargs 1)).filter
      (fun q => q.1 = "page".data) :=
    List.mem_filter.mpr ⟨hmem, by simpa using hk⟩
  rw [hfilter] at this
  cases this

theorem map_const_mem {α β : Type} (l : List α) (b : β) (h : l ≠ []) :
    b ∈ l.map (fun _ => b) := by
  rcases l with _ | ⟨a, t⟩
  · exact absurd rfl h
  · exact List.mem_cons_self b _

theorem pageList_has_page (ql : List QPair) (x : Int) (hx : 1 < x) :
    ("page".data, (Int.repr x).data) ∈ sortQuery TagSearch.queryWeight
      (overrideQueryList ql (TagSearch.pageKwargs x)) := by
  apply (mem_sortQuery _ _ _).mpr
  have hfilter := overrideQueryList_filter_key ql (TagSearch.pageKwargs x) "page".data
    (pageKwargs_nodup x)
  rw [lookupKw_page_gt x hx] at hfilter
  dsimp only at hfilter
  have hmem : ("page".data, (Int.repr x).data)
      ∈ (overrideQueryList ql (TagSearch.pageKwargs x)).filter
        (fun q => q.1 = "page".data) := by
    rw [hfilter]
    by_cases hql : ql.filter (fun q => q.1 = "page".data) = []
    · rw [if_pos hql]
      exact List.mem_cons_self _ _
    · rw [if_neg hql]
      exact map_const_mem _ _ hql
  exact (List.mem_filter.mp hmem).1

/-- Claim C8: for `n ≥ 2` and `skip_first = False`, `page_urls` yields one
URL per page 1..n, in ascending page order; page 1's query carries no
`page` parameter, and page k's query carries `page=k`; with
`skip_first = True` only pages 2..n are produced. -/
theorem C8_page_urls (stored : SplitRes) (n : Int) (ql : List QPair)
    (h : URLs.queryPipeline true true 2 stored.query = some ql) (hn : 2 ≤ n) :
    (TagSearch.page_urls stored n false
      = some ((pageRange n false).map (fun x => SplitRes.geturl
          ⟨stored.scheme, stored.netloc, stored.path,
            urlencode 2 (sortQuery TagSearch.queryWeight
              (overrideQueryList ql (TagSearch.pageKwargs x))), stored.fragment⟩))) ∧
    pageRange n false = (List.range n.toNat).map (fun i => 1 + Int.ofNat i) ∧
    (∀ urls, TagSearch.page_urls stored n false = some urls → urls.length = n.toNat) ∧
    (∀ p ∈ sortQuery TagSearch.queryWeight (overrideQueryList ql (TagSearch.pageKwargs 1)),
      p.1 ≠ "page".data) ∧
    (∀ x : Int, 1 < x →
      ("page".data, (Int.repr x).data) ∈ sortQuery TagSearch.queryWeight
        (overrideQueryList ql (TagSearch.pageKwargs x))) ∧
    (TagSearch.page_urls stored n true
      = some ((pageRange n true).map (fun x => SplitRes.geturl
          ⟨stored.scheme, stored.netloc, stored.path,
            urlencode 2 (sortQuery TagSearch.queryWeight
              (overrideQueryList ql (TagSearch.pageKwargs x))), stored.fragment⟩))) ∧
    pageRange n true = (List.range (n - 1).toNat).map (fun i => 2 + Int.ofNat i) := by
  have hmain : ∀ sk : Bool, TagSearch.page_urls stored n sk
      = some ((pageRange n sk).map (fun x => SplitRes.geturl
          ⟨stored.scheme, stored.netloc, stored.path,
            urlencode 2 (sortQuery TagSearch.queryWeight
              (overrideQueryList ql (TagSearch.pageKwargs x))), stored.fragment⟩)) := by
    intro sk
    rw [TagSearch.page_urls]
    rw [mapM_some_of _ _ (fun x => (⟨stored.scheme, stored.netloc, stored.path,
      urlencode 2 (sortQuery TagSearch.queryWeight
        (overrideQueryList ql (TagSearch.pageKwargs x))), stored.fragment⟩ : SplitRes))
      (fun x _ => overrideQuery_some (TagSearch.pageKwargs x) TagSearch.queryWeight stored ql h)]
    rw [Option.map_some', List.map_map]
    rfl
  refine ⟨hmain false, pageRange_false_eq n (by omega), ?_, ?_, ?_, hmain true,
    pageRange_true_eq n⟩
  · intro urls hurls
    rw [hmain false] at hurls
    have := Option.some_inj.mp hurls
    rw [← this, List.length_map, pageRange_false_eq n (by omega), List.length_map,
      List.length_range]
  · exact fun p hp => pageList_no_page ql p hp
  · exact fun x hx => pageList_has_page ql x hx

/-- Concrete instance of claim C8: on the stored query `query[name]=foo`,
page 1's pair list has no `page` key and page 2's pair list contains
`page=2`. -/
theorem C8_witness :
    (∀ p ∈ sortQuery TagSearch.queryWeight (overrideQueryList
        [("query[name]".data, "foo".data)] (TagSearch.pageKwargs 1)),
      p.1 ≠ "page".data) ∧
    ("page".data, "2".data) ∈ sortQuery TagSearch.queryWeight
      (overrideQueryList [("query[name]".data, "foo".data)] (TagSearch.pageKwargs 2)) := by
  have h := C8_page_urls ⟨"https".data, "archiveofourown.org".data, "/tags/search".data,
    "query[name]=foo".data, []⟩ 3 [("query[name]".data, "foo".data)] (by decide) (by omega)
  refine ⟨h.2.2.2.1, ?_⟩
  have h2 := h.2.2.2.2.1 2 (by omega)
  have hrepr : (Int.repr 2).data = "2".data := by decide
  rw [hrepr] at h2
  exact h2

/-- Claim C10: for `n ≤ 1` (including 0 and negative), the range is clamped
to `max(1, n)`, so `page_urls(n, skip_first=False)` still returns exactly
the single page-1 URL (whose query has no `page` parameter), and
`page_urls(n, skip_first=True)` returns the empty list. -/
theorem C10_page_urls_clamp (stored : SplitRes) (n : Int) (ql : List QPair)
    (h : URLs.queryPipeline true true 2 stored.query = some ql) (hn : n ≤ 1) :
    pageRange n false = [1] ∧
    TagSearch.page_urls stored n false
      = some [SplitRes.geturl ⟨stored.scheme, stored.netloc, stored.path,
          urlencode 2 (sortQuery TagSearch.queryWeight
            (overrideQueryList ql (TagSearch.pageKwargs 1))), stored.fragment⟩] ∧
    (∀ p ∈ sortQuery TagSearch.queryWeight (overrideQueryList ql (TagSearch.pageKwargs 1)),
      p.1 ≠ "page".data) ∧
    TagSearch.page_urls stored n true = some [] := by
  have hrange : pageRange n false = [1] := by
    rw [pageRange]
    have h1 : max 1 n = 1 := max_eq_left hn
    rw [h1]
    rfl
  have hrangeT : pageRange n true = [] := by
    rw [pageRange]
    have h1 : max 1 n = 1 := max_eq_left hn
    rw [h1]
    rfl
  refine ⟨hrange, ?_, fun p hp => pageList_no_page ql p hp, ?_⟩
  · rw [TagSearch.page_urls, hrange]
    rw [mapM_some_of _ _ (fun x => (⟨stored.scheme, stored.netloc, stored.path,
      urlencode 2 (sortQuery TagSearch.queryWeight
        (overrideQueryList ql (TagSearch.pageKwargs x))), stored.fragment⟩ : SplitRes))
      (fun x _ => overrideQuery_some (TagSearch.pageKwargs x) TagSearch.queryWeight stored ql h)]
    rfl
  · rw [TagSearch.page_urls, hrangeT]
    rfl

/-- Concrete instance of claim C10: `n = 0` still yields one page-1 URL
without a `page` parameter, and the skip-first variant yields none. -/
theorem C10_witness :
    pageRange 0 false = [1] ∧
    TagSearch.page_urls ⟨"https".data, "archiveofourown.org".data, "/tags/search".data,
        "query[name]=foo".data, []⟩ 0 true = some [] := by
  have h := C10_page_urls_clamp ⟨"https".data, "archiveofourown.org".data,
    "/tags/search".data, "query[name]=foo".data, []⟩ 0
    [("query[name]".data, "foo".data)] (by decide) (by omega)
  exact ⟨h.1, h.2.2.2⟩

/-! ### Lemmas: split idempotence (claim C4) -/

theorem splitFirst?_none_iff (sep : Char) (l : List Char) :
    splitFirst? sep l = none ↔ sep ∉ l := by
  induction l with
  | nil => simp [splitFirst?]
  | cons c rest ih =>
    rw [splitFirst?]
    by_cases hc : c = sep
    · rw [if_pos hc]
      simp [hc.symm]
    · rw [if_neg hc]
      rcases hr : splitFirst? sep rest with _ | p
      · simp only [Option.map_none']
        have hnr : sep ∉ rest := ih.mp hr
        constructor
        · intro _ hmem
          rcases List.mem_cons.mp hmem with hh | hh
          · exact hc hh.symm
          · exact hnr hh
        · intro _
          trivial
      · simp only [Option.map_some']
        have hin : sep ∈ rest := by
          by_contra hns
          rw [ih.mpr hns] at hr
          cases hr
        constructor
        · intro hh
          cases hh
        · intro hh
          exact absurd (List.mem_cons_of_mem c hin) hh

theorem splitFirst?_eq_some (sep : Char) (l : List Char) (p : List Char × List Char)
    (h : splitFirst? sep l = some p) : sep ∉ p.1 ∧ l = p.1 ++ sep :: p.2 := by
  induction l generalizing p with
  | nil => cases h
  | cons c rest ih =>
    rw [splitFirst?] at h
    by_cases hc : c = sep
    · rw [if_pos hc] at h
      obtain rfl := Option.some_inj.mp h
      simpa using hc
    · rw [if_neg hc] at h
      rcases hr : splitFirst? sep rest with _ | pp
      · rw [hr] at h
        cases h
      · rw [hr] at h
        obtain rfl := Option.some_inj.mp h.symm
        rcases ih pp hr with ⟨ih1, ih2⟩
        dsimp only
        constructor
        · intro hh
          rcases List.mem_cons.mp hh with hh | hh
          · exact hc hh.symm
          · exact ih1 hh
        · rw [List.cons_append, ← ih2]

theorem splitTail_facts (sch nl r2 : List Char) :
    ('#') ∉ (URLs.splitTail sch nl r2).path ∧ ('?') ∉ (URLs.splitTail sch nl r2).path ∧
    ('#') ∉ (URLs.splitTail sch nl r2).query := by
  rw [URLs.splitTail]
  rcases hfr : splitFirst? '#' r2 with _ | p
  · have hnf : ('#') ∉ r2 := (splitFirst?_none_iff '#' r2).mp hfr
    dsimp only
    rcases hpq : splitFirst? '?' r2 with _ | pp
    · have hnq : ('?') ∉ r2 := (splitFirst?_none_iff '?' r2).mp hpq
      exact ⟨hnf, hnq, by simp⟩
    · rcases splitFirst?_eq_some '?' r2 pp hpq with ⟨hq1, hq2⟩
      refine ⟨?_, hq1, ?_⟩
      · intro hh
        exact hnf (hq2 ▸ List.mem_append.mpr (Or.inl hh))
      · intro hh
        exact hnf (hq2 ▸ List.mem_append.mpr (Or.inr (List.mem_cons_of_mem _ hh)))
  · rcases splitFirst?_eq_some '#' r2 p hfr with ⟨hf1, _⟩
    dsimp only
    rcases hpq : splitFirst? '?' p.1 with _ | pp
    · have hnq : ('?') ∉ p.1 := (splitFirst?_none_iff '?' p.1).mp hpq
      exact ⟨hf1, hnq, by simp⟩
    · rcases splitFirst?_eq_some '?' p.1 pp hpq with ⟨hq1, hq2⟩
      refine ⟨?_, hq1, ?_⟩
      · intro hh
        exact hf1 (hq2 ▸ List.mem_append.mpr (Or.inl hh))
      · intro hh
        exact hf1 (hq2 ▸ List.mem_append.mpr (Or.inr (List.mem_cons_of_mem _ hh)))

theorem urlsplitO_facts (u : List Char) (s : SplitRes) (h : URLs.urlsplitO u = some s) :
    ('#') ∉ s.path ∧ ('?') ∉ s.path ∧ ('#') ∉ s.query := by
  rw [URLs.urlsplitO] at h
  by_cases h2 : ((URLs.schemeSplit u).2.take 2) = ['/', '/']
  · rw [if_pos h2] at h
    by_cases hbr : (((URLs.schemeSplit u).2.drop 2).takeWhile (fun c => !URLs.stopChar c)).contains '[' ∧
        ¬(((URLs.schemeSplit u).2.drop 2).takeWhile (fun c => !URLs.stopChar c)).contains ']' ∨
        (((URLs.schemeSplit u).2.drop 2).takeWhile (fun c => !URLs.stopChar c)).contains ']' ∧
        ¬(((URLs.schemeSplit u).2.drop 2).takeWhile (fun c => !URLs.stopChar c)).contains '[' 
    · rw [if_pos hbr] at h
      cases h
    · rw [if_neg hbr] at h
      obtain rfl := (Option.some_inj.mp h).symm
      exact splitTail_facts _ _ _
  · rw [if_neg h2] at h
    obtain rfl := (Option.some_inj.mp h).symm
    exact splitTail_facts _ _ _

theorem dropWhile_fix_head (p1 : List Char) (hfix : p1.dropWhile (fun c => c = '/') = p1) :
    p1.head? ≠ some '/' := by
  intro hh
  rcases p1 with _ | ⟨c, t⟩
  · cases hh
  · have hc : c = '/' := by simpa using hh
    rw [List.dropWhile_cons, if_pos (by simpa using hc)] at hfix
    have hsub := List.dropWhile_sublist (l := t) (p := fun c => decide (c = '/'))
    have hlen := hsub.length_le
    rw [hfix] at hlen
    simp at hlen

theorem domainFix_true_some (nl d2 : List Char) (h : URLs.domainFix true nl = some d2) :
    d2 = URLs.domainChars := by
  rw [URLs.domainFix] at h
  dsimp only at h
  by_cases h1 : (if "www.".data.isPrefixOf (nl.map Char.toLower) then nl.drop 4 else nl) = []
  · rw [if_pos h1] at h
    exact (Option.some_inj.mp h).symm
  · rw [if_neg h1, if_pos (rfl : (true : Bool) = true)] at h
    by_cases h2 : (if "www.".data.isPrefixOf (nl.map Char.toLower) then nl.drop 4 else nl)
        = URLs.domainChars
    · rw [if_pos h2] at h
      rw [← Option.some_inj.mp h]
      exact h2
    · rw [if_neg h2] at h
      cases h

theorem split_abs_shape (url : List Char) (r : SplitRes)
    (h : URLs.split url true 0 true = some r) :
    r.scheme = URLs.protocolChars ∧ r.netloc = URLs.domainChars ∧
    (∃ p1, r.path = '/' :: p1 ∧ p1.dropWhile (fun c => c = '/') = p1 ∧
      ('#') ∉ p1 ∧ ('?') ∉ p1) ∧ ('#') ∉ r.query := by
  rw [URLs.split] at h
  rw [show URLs.applyUnquote 0 url = some url from rfl] at h
  dsimp only at h
  rcases hu : URLs.urlsplitO (if URLs.domainChars.isPrefixOf (url.dropWhile (fun c => c = '/'))
      ∨ URLs.domainWwwChars.isPrefixOf (url.dropWhile (fun c => c = '/')) then
      URLs.protocolPfxChars ++ url.dropWhile (fun c => c = '/')
    else url.dropWhile (fun c => c = '/')) with _ | r0
  · rw [hu] at h
    cases h
  · rw [hu] at h
    dsimp only at h
    rcases urlsplitO_facts _ r0 hu with ⟨hf1, hf2, hf3⟩
    have hmemsub : ∀ x : Char, x ∈ r0.path.dropWhile (fun c => c = '/') → x ∈ r0.path :=
      fun x hx => (List.dropWhile_sublist (fun c => decide (c = '/'))).mem hx
    rcases hd : URLs.domainFix true r0.netloc with _ | d2
    · rw [hd] at h
      cases h
    · rw [hd] at h
      dsimp only at h
      obtain rfl := (Option.some_inj.mp h).symm
      refine ⟨rfl, domainFix_true_some r0.netloc d2 hd, ⟨r0.path.dropWhile (fun c => c = '/'),
        rfl, List.dropWhile_idempotent _ _, ?_, ?_⟩, hf3⟩
      · exact fun hh => hf1 (hmemsub _ hh)
      · exact fun hh => hf2 (hmemsub _ hh)

theorem scan_append (p : Char → Bool) (s t : List Char) (hs : ∀ c ∈ s, p c = true)
    (ht : ∀ c, t.head? = some c → p c = false) :
    (s ++ t).takeWhile p = s ∧ (s ++ t).dropWhile p = t := by
  induction s with
  | nil =>
    rcases t with _ | ⟨c, tt⟩
    · simp
    · have hc := ht c rfl
      rw [List.nil_append]
      rw [List.takeWhile_cons, List.dropWhile_cons, if_neg (by simp [hc]), if_neg (by simp [hc])]
      simp
  | cons c ss ih =>
    have hc := hs c (List.mem_cons_self c ss)
    rcases ih (fun x hx => hs x (List.mem_cons_of_mem c hx)) with ⟨ih1, ih2⟩
    rw [List.cons_append, List.takeWhile_cons, List.dropWhile_cons,
      if_pos (by simp [hc]), if_pos (by simp [hc]), ih1, ih2]
    simp

theorem isPrefixOf_head_ne (a b : Char) (as bs : List Char) (h : ¬a = b) :
    (a :: as).isPrefixOf (b :: bs) = false := by
  simp [List.isPrefixOf, h]

theorem geturl_abs (p1 q f : List Char) :
    SplitRes.geturl ⟨URLs.protocolChars, URLs.domainChars, '/' :: p1, q, f⟩
      = "https://archiveofourown.org/".data ++ (p1 ++
          ((if q = [] then [] else '?' :: q) ++ (if f = [] then [] else '#' :: f))) := by
  rw [SplitRes.geturl]
  dsimp only
  rw [if_pos (Or.inl (by decide))]
  rw [if_pos (by decide : ¬URLs.protocolChars = [])]
  by_cases hq : q = [] <;> by_cases hf : f = [] <;>
    simp only [hq, hf, if_pos rfl, ne_eq, not_true_eq_false, not_false_eq_true, if_neg,
      if_true, if_false, List.take_cons, List.cons_ne_nil, List.append_nil, List.nil_append,
      List.append_assoc, List.cons_append, ite_true, ite_false] <;>
    first
      | rfl
      | (rw [if_neg (by simp), if_neg (by simp [hq]), if_neg (by simp [hf])] <;> rfl)
      | (rw [if_neg (by simp), if_neg (by simp [hq])] <;> rfl)
      | (rw [if_neg (by simp), if_neg (by simp [hf])] <;> rfl)
      | (rw [if_neg (by simp)] <;> rfl)

theorem splitTail_qf (sch nl p1 q f : List Char) (hb1 : ('#') ∉ p1) (hb2 : ('?') ∉ p1)
    (hb3 : ('#') ∉ q) :
    URLs.splitTail sch nl ('/' :: (p1 ++ ((if q = [] then [] else '?' :: q)
      ++ (if f = [] then [] else '#' :: f))))
    = ⟨sch, nl, '/' :: p1, q, f⟩ := by
  have hnp : ('#') ∉ '/' :: p1 := by
    intro hh
    rcases List.mem_cons.mp hh with hh | hh
    · cases hh
    · exact hb1 hh
  have hnq : ('?') ∉ '/' :: p1 := by
    intro hh
    rcases List.mem_cons.mp hh with hh | hh
    · cases hh
    · exact hb2 hh
  by_cases hq : q = [] <;> by_cases hf : f = []
  · rw [if_pos hq, if_pos hf]
    rw [List.append_nil, List.append_nil]
    rw [URLs.splitTail]
    rw [(splitFirst?_none_iff '#' ('/' :: p1)).mpr hnp]
    dsimp only
    rw [(splitFirst?_none_iff '?' ('/' :: p1)).mpr hnq]
    rw [hq, hf]
  · rw [if_pos hq, if_neg hf]
    rw [List.nil_append]
    have harr : '/' :: (p1 ++ '#' :: f) = ('/' :: p1) ++ '#' :: f := by simp
    rw [harr]
    rw [URLs.splitTail]
    rw [splitFirst?_append_sep '#' _ _ hnp]
    dsimp only
    rw [(splitFirst?_none_iff '?' ('/' :: p1)).mpr hnq]
    rw [hq]
  · rw [if_neg hq, if_pos hf]
    rw [List.append_nil]
    have harr : '/' :: (p1 ++ '?' :: q) = ('/' :: p1) ++ '?' :: q := by simp
    rw [harr]
    rw [URLs.splitTail]
    have hnf2 : ('#') ∉ ('/' :: p1) ++ '?' :: q := by
      intro hh
      rcases List.mem_append.mp hh with hh | hh
      · exact hnp hh
      · rcases List.mem_cons.mp hh with hh | hh
        · cases hh
        · exact hb3 hh
    rw [(splitFirst?_none_iff '#' _).mpr hnf2]
    dsimp only
    rw [splitFirst?_append_sep '?' _ _ hnq]
    rw [hf]
  · rw [if_neg hq, if_neg hf]
    have harr : '/' :: (p1 ++ ('?' :: q ++ '#' :: f)) = (('/' :: p1) ++ '?' :: q) ++ '#' :: f := by
      simp
    rw [harr]
    rw [URLs.splitTail]
    have hnf2 : ('#') ∉ ('/' :: p1) ++ '?' :: q := by
      intro hh
      rcases List.mem_append.mp hh with hh | hh
      · exact hnp hh
      · rcases List.mem_cons.mp hh with hh | hh
        · cases hh
        · exact hb3 hh
    rw [splitFirst?_append_sep '#' _ _ hnf2]
    dsimp only
    rw [splitFirst?_append_sep '?' _ _ hnq]

theorem split_geturl_abs (p1 q f : List Char)
    (hfix : p1.dropWhile (fun c => c = '/') = p1)
    (hb1 : ('#') ∉ p1) (hb2 : ('?') ∉ p1) (hb3 : ('#') ∉ q) :
    URLs.split (SplitRes.geturl ⟨URLs.protocolChars, URLs.domainChars, '/' :: p1, q, f⟩)
      true 0 true = some ⟨URLs.protocolChars, URLs.domainChars, '/' :: p1, q, f⟩ := by
  rw [geturl_abs]
  set X : List Char := p1 ++ ((if q = [] then [] else '?' :: q)
    ++ (if f = [] then [] else '#' :: f)) with hX
  rw [URLs.split]
  rw [show URLs.applyUnquote 0 ("https://archiveofourown.org/".data ++ X)
    = some ("https://archiveofourown.org/".data ++ X) from rfl]
  dsimp only
  have hdw : ("https://archiveofourown.org/".data ++ X).dropWhile (fun c => c = '/')
      = "https://archiveofourown.org/".data ++ X := by
    rw [show ("https://archiveofourown.org/".data ++ X)
      = 'h' :: ("ttps://archiveofourown.org/".data ++ X) from rfl]
    rw [List.dropWhile_cons, if_neg (by decide)]
  rw [hdw]
  have hpre1 : URLs.domainChars.isPrefixOf ("https://archiveofourown.org/".data ++ X) = false := by
    rw [show URLs.domainChars = 'a' :: "rchiveofourown.org".data from rfl,
      show ("https://archiveofourown.org/".data ++ X)
        = 'h' :: ("ttps://archiveofourown.org/".data ++ X) from rfl]
    exact isPrefixOf_head_ne _ _ _ _ (by decide)
  have hpre2 : URLs.domainWwwChars.isPrefixOf ("https://archiveofourown.org/".data ++ X) = false := by
    rw [show URLs.domainWwwChars = 'w' :: "ww.archiveofourown.org".data from rfl,
      show ("https://archiveofourown.org/".data ++ X)
        = 'h' :: ("ttps://archiveofourown.org/".data ++ X) from rfl]
    exact isPrefixOf_head_ne _ _ _ _ (by decide)
  rw [if_neg (by
    intro hor
    rcases hor with hor | hor
    · rw [hpre1] at hor
      cases hor
    · rw [hpre2] at hor
      cases hor)]
  have hsch : URLs.schemeSplit ("https://archiveofourown.org/".data ++ X)
      = ("https".data, "//archiveofourown.org/".data ++ X) := by
    rw [URLs.schemeSplit]
    rw [show ("https://archiveofourown.org/".data ++ X)
      = "https".data ++ ':' :: ("//archiveofourown.org/".data ++ X) from rfl]
    rw [splitFirst?_append_sep ':' _ _ (by decide)]
    dsimp only
    rw [if_pos (by decide)]
    rw [show "https".data.map Char.toLower = "https".data from by decide]
  rw [URLs.urlsplitO, hsch]
  dsimp only
  rw [if_pos (show (("//archiveofourown.org/".data ++ X).take 2) = ['/', '/'] from rfl)]
  have hscan := scan_append (fun c => !URLs.stopChar c) "archiveofourown.org".data ('/' :: X)
    (by decide)
    (fun c hc => by
      obtain rfl := Option.some_inj.mp hc.symm
      decide)
  rw [show (("//archiveofourown.org/".data ++ X).drop 2)
    = "archiveofourown.org".data ++ ('/' :: X) from rfl]
  rw [hscan.1, hscan.2]
  rw [if_neg (by decide)]
  rw [hX]
  rw [splitTail_qf "https".data "archiveofourown.org".data p1 q f hb1 hb2 hb3]
  dsimp only
  rw [show URLs.domainFix true ("archiveofourown.org".data) = some URLs.domainChars from by decide]
  dsimp only
  rw [List.dropWhile_cons, hfix]
  simp

/-- Claim C4 counterexample: with unquoting enabled (the default family of
flags includes `unquote=True`), `split` percent-decodes again on the second
application: `/tags/a%2520b` first becomes `/tags/a%20b`, and splitting the
re-assembled URL decodes once more to `/tags/a b`, so split∘geturl∘split
differs from split. -/
theorem C4_counterexample :
    (URLs.split "https://archiveofourown.org/tags/a%2520b".data true 1 true).bind
      (fun r => URLs.split r.geturl true 1 true)
    ≠ URLs.split "https://archiveofourown.org/tags/a%2520b".data true 1 true := by
  decide

/-- Claim C4 (amended): for the flag combination `check_domain=True`,
`unquote=False`, `to_abs=True`, `split` is idempotent: re-splitting the
re-assembled (`geturl`) result of a successful split returns that same
5-part result, for every input string. (With unquoting enabled the
percent-decoding is re-applied on the second pass, and with
`check_domain=False` or `to_abs=False` repeated `www.`-stripping or
scheme re-detection on relative paths can alter the result.) -/
theorem C4_split_idempotent (url : List Char) (r : SplitRes)
    (h : URLs.split url true 0 true = some r) :
    URLs.split r.geturl true 0 true = some r := by
  obtain ⟨hs, hn, ⟨p1, hp, hfix, hn1, hn2⟩, hq⟩ := split_abs_shape url r h
  rcases r with ⟨a, b, c, d, e⟩
  dsimp only at hs hn hp hq
  subst hs
  subst hn
  subst hp
  exact split_geturl_abs p1 d e hfix hn1 hn2 hq

/-- Concrete instance of the amended claim C4: re-splitting the assembled
result of splitting `https://archiveofourown.org/tags/search?a=1` (with
`unquote=False`) reproduces it exactly. -/
theorem C4_witness :
    URLs.split (SplitRes.geturl ⟨"https".data, "archiveofourown.org".data,
      "/tags/search".data, "a=1".data, []⟩) true 0 true
    = some ⟨"https".data, "archiveofourown.org".data, "/tags/search".data, "a=1".data, []⟩ :=
  C4_split_idempotent "https://archiveofourown.org/tags/search?a=1".data
    ⟨"https".data, "archiveofourown.org".data, "/tags/search".data, "a=1".data, []⟩ (by decide)
